import Mathlib

/-!
Verification of the filesystem primitives of `cargo-bundle`'s
`src/bundle/common.rs` against its specification.

The first part embeds the pure path normalizer `resource_relpath` together
with a model of Rust's Unix path component parsing (`Path::components`):
repeated separators are ignored, `.` segments are dropped except when they
are the leading component of a relative path, a leading `/` is the root
component, and `..` segments are parent-directory components.  Windows
volume prefixes are represented in the `Component` type (they are discarded
by the normalizer) but the string parser models Unix paths and never
produces them.
-/

namespace Bundle


/-- Model of Rust's `std::path::Component`. -/
inductive Component where
  | prefixComp (s : String)
  | rootDir
  | curDir
  | parentDir
  | normal (s : String)
deriving DecidableEq

/-- One step of the `for component in path.components()` loop of
`resource_relpath`: `PathBuf::push` of the substituted segment (pushing a
single normal segment appends it). -/
def pushComp (dest : List String) (c : Component) : List String :=
  match c with
  | .prefixComp _ => dest
  | .rootDir => dest ++ ["_root_"]
  | .curDir => dest
  | .parentDir => dest ++ ["_up_"]
  | .normal s => dest ++ [s]

/-- `resource_relpath` from `src/bundle/common.rs`: fold the component
substitution over the components of the input path, starting from an empty
`PathBuf`. -/
def resource_relpath (path : List Component) : List String :=
  path.foldl pushComp []

/-- The per-component substitution described by the spec: drop prefixes and
`.`, replace the root anchor by `_root_`, replace `..` by `_up_`, keep
normal names. -/
def componentSubst : Component → Option String
  | .prefixComp _ => none
  | .rootDir => some "_root_"
  | .curDir => none
  | .parentDir => some "_up_"
  | .normal s => some s

/-- Helper for splitting at `/`: returns the first segment and the remaining
segments of the input. -/
def splitSlashAux : List Char → List Char × List (List Char)
  | [] => ([], [])
  | c :: rest =>
    let r := splitSlashAux rest
    if c = '/' then ([], r.1 :: r.2) else (c :: r.1, r.2)

/-- Split a character list at `/` separators (the separators themselves are
dropped; empty segments are kept and filtered later, as Rust does). -/
def splitSlash (cs : List Char) : List (List Char) :=
  (splitSlashAux cs).1 :: (splitSlashAux cs).2

/-- Whether a character list starts with `/` (absolute Unix path). -/
def isAbsChars : List Char → Bool
  | [] => false
  | c :: _ => c = '/'

/-- Rust `Path::components()` for Unix paths, over the character list of the
path string. -/
def leadCurDir (parts : List (List Char)) : List Component :=
  match parts with
  | p :: _ => if p = ['.'] then [.curDir] else []
  | [] => []

def parseComps (cs : List Char) : List Component :=
  (if isAbsChars cs then [Component.rootDir] else []) ++
    (if isAbsChars cs then []
     else leadCurDir ((splitSlash cs).filter (fun p => p ≠ []))) ++
    ((((splitSlash cs).filter (fun p => p ≠ [])).filter (fun p => p ≠ ['.'])).map
      (fun p => if p = ['.', '.'] then Component.parentDir else Component.normal ⟨p⟩))

/-- Components of a path string (Rust `Path::new(s).components()`, Unix). -/
def pathComponents (s : String) : List Component := parseComps s.data

/-- Join segments with `/` between them. -/
def intercalateSlash : List (List Char) → List Char
  | [] => []
  | [a] => a
  | a :: rest => a ++ '/' :: intercalateSlash rest

/-- Render a segment list (the contents of the produced `PathBuf`) back to a
path string. -/
def renderSegs (segs : List String) : String := ⟨intercalateSlash (segs.map String.data)⟩

/-- A component on which the substitution is faithful: not a prefix, not
`.`, and not a normal name that collides with a sentinel. -/
def plainComp : Component → Bool
  | .prefixComp _ => false
  | .curDir => false
  | .normal s => s ≠ "_root_" && s ≠ "_up_"
  | _ => true

/-- A filesystem path: `abs` records a leading `/`, `comps` the components
(plain names, as produced by `Path::components`). -/
structure RPath where
  abs : Bool
  comps : List String
deriving DecidableEq

/-- `Path::parent`: drop the last component; `None` for the root path `/`
and for the empty path. -/
def RPath.parent (p : RPath) : Option RPath :=
  if p.comps.isEmpty then none else some ⟨p.abs, p.comps.dropLast⟩

/-- `Path::join` with a relative component list (as produced by
`strip_prefix`). -/
def RPath.join (p : RPath) (r : List String) : RPath := ⟨p.abs, p.comps ++ r⟩

/-- A filesystem node. -/
inductive Node where
  | file (bytes : List Nat)
  | symlink (target : RPath)
  | dir (entries : List (String × Node))

/-- First entry with the given name in a directory's entry list. -/
def findEntry : List (String × Node) → String → Option Node
  | [], _ => none
  | (nm, ch) :: rest, c => if nm = c then some ch else findEntry rest c

/-- Replace the first entry with the given name. -/
def replaceEntry : List (String × Node) → String → Node → List (String × Node)
  | [], _, _ => []
  | (nm, ch) :: rest, c, new =>
    if nm = c then (nm, new) :: rest else (nm, ch) :: replaceEntry rest c new

/-- Structural lookup of the node at a path (no symlink following). -/
def lookupN : Node → List String → Option Node
  | nd, [] => some nd
  | .dir es, c :: rest =>
    match findEntry es c with
    | some ch => lookupN ch rest
    | none => none
  | _, _ :: _ => none

/-- Write `new` at the path, replacing an existing node or inserting a new
final entry; fails when an ancestor is missing or not a directory. -/
def setPath : Node → List String → Node → Option Node
  | _, [], new => some new
  | .dir es, c :: rest, new =>
    match findEntry es c with
    | some ch => (setPath ch rest new).map (fun ch' => Node.dir (replaceEntry es c ch'))
    | none =>
      match rest with
      | [] => some (.dir (es ++ [(c, new)]))
      | _ :: _ => none
  | _, _ :: _, _ => none

/-- `fs::create_dir_all`: create every missing directory along the path;
fails when an existing node along it is not a directory. -/
def mkdirp : Node → List String → Option Node
  | nd, [] =>
    match nd with
    | .dir _ => some nd
    | _ => none
  | .dir es, c :: rest =>
    match findEntry es c with
    | some ch => (mkdirp ch rest).map (fun ch' => Node.dir (replaceEntry es c ch'))
    | none => (mkdirp (.dir []) rest).map (fun ch' => Node.dir (es ++ [(c, ch')]))
  | _, _ :: _ => none

/-- Resolve a symlink target read at location `here`: absolute targets from
the root, relative targets from the link's directory. -/
def tResolve (here : List String) (t : RPath) : List String :=
  if t.abs then t.comps else here.dropLast ++ t.comps

/-- `stat`: follow a final chain of symlinks, with fuel (the kernel's
symlink-loop limit). -/
def statN (fs : Node) : Nat → List String → Option Node
  | 0, _ => none
  | fuel + 1, p =>
    match lookupN fs p with
    | some (.symlink t) => statN fs fuel (tResolve p t)
    | r => r

/-- `stat` of a path; the empty relative path never exists (`stat("")`
fails with `ENOENT`). -/
def statPath (fs : Node) (p : RPath) : Option Node :=
  if !p.abs && p.comps.isEmpty then none else statN fs 40 p.comps

/-- `Path::exists` (follows symlinks). -/
def existsP (fs : Node) (p : RPath) : Bool := (statPath fs p).isSome

/-- `Path::is_file` (follows symlinks). -/
def isFileP (fs : Node) (p : RPath) : Bool :=
  match statPath fs p with
  | some (.file _) => true
  | _ => false

/-- `Path::is_dir` (follows symlinks). -/
def isDirP (fs : Node) (p : RPath) : Bool :=
  match statPath fs p with
  | some (.dir _) => true
  | _ => false

/-- `fs::read_link`: the raw stored target, never resolved. -/
def readLink (fs : Node) (p : RPath) : Option RPath :=
  match lookupN fs p.comps with
  | some (.symlink t) => some t
  | _ => none

/-- `fs::create_dir`: fails if the path exists or its parent is missing. -/
def createDir (fs : Node) (p : RPath) : Option Node :=
  match lookupN fs p.comps with
  | some _ => none
  | none => setPath fs p.comps (.dir [])

/-- `symlink(2)`: store the raw target at `dst`; fails if `dst` exists. -/
def createSymlink (fs : Node) (target : RPath) (dst : RPath) : Option Node :=
  match lookupN fs dst.comps with
  | some _ => none
  | none => setPath fs dst.comps (.symlink target)

/-- `symlink_dir` from `common.rs` (the `cfg(unix)` branch: the same
`symlink` syscall as for files). -/
def symlink_dir (fs : Node) (src dst : RPath) : Option Node := createSymlink fs src dst

/-- `symlink_file` from `common.rs` (the `cfg(unix)` branch). -/
def symlink_file (fs : Node) (src dst : RPath) : Option Node := createSymlink fs src dst

/-- Write file bytes at a path: creates or overwrites a regular file; fails
on an existing directory or symlink destination (the model keeps
destination symlinks unresolved and rejects them). -/
def writeFile (fs : Node) (p : List String) (c : List Nat) : Option Node :=
  match lookupN fs p with
  | some (.file _) => setPath fs p (.file c)
  | some _ => none
  | none => setPath fs p (.file c)

/-- `fs::copy`: read the bytes at `src` (following symlinks) and write them
at `dst`. -/
def copyOp (fs : Node) (src dst : RPath) : Option Node :=
  match statPath fs src with
  | some (.file c) => writeFile fs dst.comps c
  | _ => none

mutual

/-- `walkdir::WalkDir`: pre-order traversal paired with each entry's path
relative to the walked root; the root itself comes first and symlinks are
not descended into (`follow_links` is off). -/
def walkNode : Node → List (List String × Node)
  | .file c => [([], .file c)]
  | .symlink t => [([], .symlink t)]
  | .dir es => ([], .dir es) :: walkKids es

/-- Walk of a directory's children, in entry order. -/
def walkKids : List (String × Node) → List (List String × Node)
  | [] => []
  | (nm, ch) :: rest => (walkNode ch).map (fun q => (nm :: q.1, q.2)) ++ walkKids rest
end

/-- The error outcomes of the helpers, one constructor per distinct `bail!`
or propagated failure shape; `panicked` models a Rust panic (`unwrap` on
`None`), which is not a returned error. -/
inductive Err where
  | notFound (p : RPath)
  | wrongType (p : RPath)
  | alreadyExists (p : RPath)
  | ioFailure
  | decodeFailure (p : RPath)
  | panicked
deriving DecidableEq

/-- The body of `copy_dir`'s loop for one walked entry. -/
def copyEntry (fromP toP : RPath) (g : Node) (e : List String × Node) : Option Node :=
  match e.2 with
  | .symlink _ =>
    match readLink g (fromP.join e.1) with
    | some target =>
      if isDirP g (fromP.join e.1) then symlink_dir g target (toP.join e.1)
      else symlink_file g target (toP.join e.1)
    | none => none
  | .dir _ => createDir g (toP.join e.1)
  | .file _ => copyOp g (fromP.join e.1) (toP.join e.1)

/-- `copy_dir`'s loop: the first failing entry aborts, keeping the partial
destination state. -/
def copyEntries (fromP toP : RPath) : Node → List (List String × Node) → Except Err Unit × Node
  | g, [] => (.ok (), g)
  | g, e :: rest =>
    match copyEntry fromP toP g e with
    | none => (.error .ioFailure, g)
    | some g1 => copyEntries fromP toP g1 rest

/-- `copy_dir` from `src/bundle/common.rs`. -/
def copy_dir (fs : Node) (fromP toP : RPath) : Except Err Unit × Node :=
  if existsP fs fromP = false then (.error (.notFound fromP), fs)
  else if isDirP fs fromP = false then (.error (.wrongType fromP), fs)
  else if existsP fs toP = true then (.error (.alreadyExists toP), fs)
  else
    match toP.parent with
    | none => (.error .panicked, fs)
    | some parent =>
      match mkdirp fs parent.comps with
      | none => (.error .ioFailure, fs)
      | some fs1 =>
        match lookupN fs fromP.comps with
        | none => (.error .ioFailure, fs1)
        | some nodeA => copyEntries fromP toP fs1 (walkNode nodeA)

/-- `copy_file` from `src/bundle/common.rs`. -/
def copy_file (fs : Node) (fromP toP : RPath) : Except Err Unit × Node :=
  if existsP fs fromP = false then (.error (.notFound fromP), fs)
  else if isFileP fs fromP = false then (.error (.wrongType fromP), fs)
  else
    match toP.parent with
    | none => (.error .panicked, fs)
    | some dest_dir =>
      match mkdirp fs dest_dir.comps with
      | none => (.error .ioFailure, fs)
      | some fs1 =>
        match copyOp fs1 fromP toP with
        | none => (.error .ioFailure, fs1)
        | some fs2 => (.ok (), fs2)

/-- A UTF-8 continuation byte. -/
def isCont (b : Nat) : Bool := decide (0x80 ≤ b ∧ b ≤ 0xBF)

/-- Strict UTF-8 validity of a byte sequence (no overlong forms, no
surrogates, no code points beyond `U+10FFFF`), as `String::from_utf8` /
`fs::read_to_string` require. -/
def utf8Valid : List Nat → Bool
  | [] => true
  | b :: rest =>
    if b ≤ 0x7F then utf8Valid rest
    else if 0xC2 ≤ b ∧ b ≤ 0xDF then
      match rest with
      | b1 :: rest' => isCont b1 && utf8Valid rest'
      | [] => false
    else if b = 0xE0 then
      match rest with
      | b1 :: b2 :: rest' => decide (0xA0 ≤ b1 ∧ b1 ≤ 0xBF) && isCont b2 && utf8Valid rest'
      | _ => false
    else if (0xE1 ≤ b ∧ b ≤ 0xEC) ∨ b = 0xEE ∨ b = 0xEF then
      match rest with
      | b1 :: b2 :: rest' => isCont b1 && isCont b2 && utf8Valid rest'
      | _ => false
    else if b = 0xED then
      match rest with
      | b1 :: b2 :: rest' => decide (0x80 ≤ b1 ∧ b1 ≤ 0x9F) && isCont b2 && utf8Valid rest'
      | _ => false
    else if b = 0xF0 then
      match rest with
      | b1 :: b2 :: b3 :: rest' =>
        decide (0x90 ≤ b1 ∧ b1 ≤ 0xBF) && isCont b2 && isCont b3 && utf8Valid rest'
      | _ => false
    else if 0xF1 ≤ b ∧ b ≤ 0xF3 then
      match rest with
      | b1 :: b2 :: b3 :: rest' => isCont b1 && isCont b2 && isCont b3 && utf8Valid rest'
      | _ => false
    else if b = 0xF4 then
      match rest with
      | b1 :: b2 :: b3 :: rest' =>
        decide (0x80 ≤ b1 ∧ b1 ≤ 0x8F) && isCont b2 && isCont b3 && utf8Valid rest'
      | _ => false
    else false

/-- `read_file` from `src/bundle/common.rs`; the returned `String` is
modelled by its UTF-8 bytes. -/
def read_file (fs : Node) (file : RPath) : Except Err (List Nat) :=
  if existsP fs file = false then .error (.notFound file)
  else if isFileP fs file = false then .error (.wrongType file)
  else
    match statPath fs file with
    | some (.file bytes) =>
      if utf8Valid bytes then .ok bytes else .error (.decodeFailure file)
    | _ => .error .ioFailure

/-- Well-formed filesystem trees: directory entry names are distinct at
every level (as on a real filesystem). -/
inductive WF : Node → Prop where
  | file : ∀ c, WF (.file c)
  | symlink : ∀ t, WF (.symlink t)
  | dir : ∀ es, (es.map Prod.fst).Nodup → (∀ e ∈ es, WF e.2) → WF (.dir es)

/-- `u` leads `v`: `v` extends `u` (i.e. `u` is an initial segment). -/
def IsLead (u v : List String) : Prop := ∃ w, u ++ w = v

/-- The destination state required for a copied entry: files and symlinks
are reproduced exactly (symlinks with their raw target), directories exist
as directories. -/
def destMatchesAt (g : Node) (q : List String) : Node → Prop
  | .file c => lookupN g q = some (.file c)
  | .symlink t => lookupN g q = some (.symlink t)
  | .dir _ => ∃ es, lookupN g q = some (.dir es)

/-- The source state an entry of the walk relies on while being copied:
files and symlinks still present unchanged (directories need nothing). -/
def srcIntact (fromP : RPath) (g : Node) (x : List String) : Node → Prop
  | .file c => lookupN g (fromP.comps ++ x) = some (.file c)
  | .symlink t => lookupN g (fromP.comps ++ x) = some (.symlink t)
  | .dir _ => True

/-- Kind-preserving evolution of one path between two states. -/
def kindPreserved (g g' : Node) (q : List String) : Prop :=
  (∀ c, lookupN g q = some (.file c) → lookupN g' q = some (.file c)) ∧
    (∀ t, lookupN g q = some (.symlink t) → lookupN g' q = some (.symlink t)) ∧
    (∀ es0, lookupN g q = some (.dir es0) → ∃ es1, lookupN g' q = some (.dir es1))

/-- What one successful iteration of the copy loop guarantees: the entry is
reproduced at its destination path, every path that is neither below nor
above the written path is untouched, and every proper ancestor of the
written path is a directory before and after. -/
def stepSpec (g g1 : Node) (w : List String) (n : Node) : Prop :=
  destMatchesAt g1 w n ∧
    (∀ q, ¬ IsLead w q → ¬ IsLead q w → lookupN g1 q = lookupN g q) ∧
    (∀ q, IsLead q w → q ≠ w →
      (∃ es0, lookupN g q = some (.dir es0)) ∧ (∃ es1, lookupN g1 q = some (.dir es1)))

/-- A small concrete tree: a directory `orig` holding `sub/f` (a file) and
`l` (a symlink to `/orig/sub/f`). -/
def fsC2 : Node :=
  .dir [("orig", .dir [("sub", .dir [("f", .file [104, 105])]),
    ("l", .symlink ⟨true, ["orig", "sub", "f"]⟩)])]

/-- The tree after `copy_dir /orig /copy` on `fsC2`. -/
def fsC2done : Node :=
  .dir [("orig", .dir [("sub", .dir [("f", .file [104, 105])]),
    ("l", .symlink ⟨true, ["orig", "sub", "f"]⟩)]),
    ("copy", .dir [("sub", .dir [("f", .file [104, 105])]),
      ("l", .symlink ⟨true, ["orig", "sub", "f"]⟩)])]

/-- A directory `orig` holding one symlink `link` with raw target `/tc`
(the target may or may not exist). -/
def fsC9 (tc : List String) : Node :=
  .dir [("orig", .dir [("link", .symlink ⟨true, tc⟩)])]

/-- `fsC9` after `copy_dir` has created the destination directory. -/
def fsC9mid (tc : List String) : Node :=
  .dir [("orig", .dir [("link", .symlink ⟨true, tc⟩)]), ("copy", .dir [])]

/-- `fsC9` after `copy_dir /orig /copy` finished. -/
def fsC9done (tc : List String) : Node :=
  .dir [("orig", .dir [("link", .symlink ⟨true, tc⟩)]),
    ("copy", .dir [("link", .symlink ⟨true, tc⟩)])]

theorem foldl_pushComp (cs : List Component) (acc : List String) :
    cs.foldl pushComp acc = acc ++ cs.filterMap componentSubst := by
  induction cs generalizing acc with
  | nil => simp
  | cons c rest ih => cases c <;> simp [pushComp, componentSubst, ih]

theorem resource_relpath_eq_filterMap (cs : List Component) :
    resource_relpath cs = cs.filterMap componentSubst := by
  simpa [resource_relpath] using foldl_pushComp cs []

theorem splitSlashAux_no_slash (cs : List Char) :
    '/' ∉ (splitSlashAux cs).1 ∧ ∀ p ∈ (splitSlashAux cs).2, '/' ∉ p := by
  induction cs with
  | nil => simp [splitSlashAux]
  | cons c rest ih =>
    by_cases hc : c = '/'
    · subst hc
      simp only [splitSlashAux, if_pos rfl]
      refine ⟨by simp, ?_⟩
      intro p hp
      rcases List.mem_cons.mp hp with hp | hp
      · simpa [hp] using ih.1
      · exact ih.2 p hp
    · simp only [splitSlashAux, if_neg hc]
      refine ⟨?_, ih.2⟩
      intro hmem
      rcases List.mem_cons.mp hmem with h | h
      · exact hc h.symm
      · exact ih.1 h

theorem mem_splitSlash_no_slash (cs : List Char) (p : List Char)
    (hp : p ∈ splitSlash cs) : '/' ∉ p := by
  rcases List.mem_cons.mp hp with h | h
  · simpa [h] using (splitSlashAux_no_slash cs).1
  · exact (splitSlashAux_no_slash cs).2 p h

theorem splitSlashAux_of_no_slash (a : List Char) (ha : '/' ∉ a) :
    splitSlashAux a = (a, []) := by
  induction a with
  | nil => simp [splitSlashAux]
  | cons c rest ih =>
    have hc : c ≠ '/' := fun h => ha (by simp [h])
    have hrest : '/' ∉ rest := fun h => ha (List.mem_cons_of_mem _ h)
    simp [splitSlashAux, if_neg hc, ih hrest]

theorem splitSlashAux_append (a t : List Char) (ha : '/' ∉ a) :
    splitSlashAux (a ++ '/' :: t) =
      (a, (splitSlashAux t).1 :: (splitSlashAux t).2) := by
  induction a with
  | nil => simp [splitSlashAux]
  | cons c rest ih =>
    have hc : c ≠ '/' := fun h => ha (by simp [h])
    have hrest : '/' ∉ rest := fun h => ha (List.mem_cons_of_mem _ h)
    simp [splitSlashAux, if_neg hc, ih hrest]

/-- Splitting is the inverse of joining on nonempty, slash-free segments. -/
theorem splitSlash_intercalateSlash (segs : List (List Char)) (hne : segs ≠ [])
    (hgood : ∀ p ∈ segs, p ≠ [] ∧ '/' ∉ p) :
    splitSlash (intercalateSlash segs) = segs := by
  induction segs with
  | nil => exact absurd rfl hne
  | cons a rest ih =>
    cases rest with
    | nil =>
      have ha := hgood a (List.mem_cons_self _ _)
      simp [intercalateSlash, splitSlash, splitSlashAux_of_no_slash a ha.2]
    | cons b t =>
      have ha := hgood a (List.mem_cons_self _ _)
      have hrest : ∀ p ∈ b :: t, p ≠ [] ∧ '/' ∉ p := fun p hp =>
        hgood p (List.mem_cons_of_mem _ hp)
      have := ih (by simp) hrest
      simp only [intercalateSlash, splitSlash, splitSlashAux_append _ _ ha.2]
      simpa [splitSlash] using this

/-- Every normal-component name produced by the parser is nonempty,
slash-free, and is neither `.` nor `..`. -/
theorem parseComps_normal_good (cs : List Char) (nm : String)
    (h : Component.normal nm ∈ parseComps cs) :
    nm.data ≠ [] ∧ '/' ∉ nm.data ∧ nm.data ≠ ['.'] ∧ nm.data ≠ ['.', '.'] := by
  unfold parseComps at h
  simp only [List.mem_append] at h
  rcases h with (h | h) | h
  · split at h <;> simp_all
  · split at h
    · simp at h
    · unfold leadCurDir at h
      revert h
      split
      · split <;> intro h <;> simp_all
      · intro h; simp at h
  · rcases List.mem_map.mp h with ⟨p, hp, hpeq⟩
    rcases List.mem_filter.mp hp with ⟨hp1, hp2⟩
    rcases List.mem_filter.mp hp1 with ⟨hp0, hp3⟩
    revert hpeq
    split
    · intro h; cases h
    · intro h
      cases h
      refine ⟨by simpa using hp3, mem_splitSlash_no_slash cs p hp0, by simpa using hp2, by assumption⟩

/-- Every segment that `resource_relpath` pushes, on a parsed path, is a
nonempty slash-free name other than `.` and `..`. -/
theorem resource_relpath_seg_good (s : String) (seg : String)
    (h : seg ∈ resource_relpath (pathComponents s)) :
    seg.data ≠ [] ∧ '/' ∉ seg.data ∧ seg.data ≠ ['.'] ∧ seg.data ≠ ['.', '.'] := by
  rw [resource_relpath_eq_filterMap] at h
  rcases List.mem_filterMap.mp h with ⟨c, hc, hsub⟩
  cases c with
  | prefixComp p => simp [componentSubst] at hsub
  | rootDir =>
    simp only [componentSubst, Option.some_inj] at hsub
    subst hsub
    refine ⟨by decide, by decide, by decide, by decide⟩
  | curDir => simp [componentSubst] at hsub
  | parentDir =>
    simp only [componentSubst, Option.some_inj] at hsub
    subst hsub
    refine ⟨by decide, by decide, by decide, by decide⟩
  | normal nm =>
    simp only [componentSubst, Option.some_inj] at hsub
    subst hsub
    exact parseComps_normal_good s.data _ hc

/-- Re-parsing a rendered list of good segments yields exactly those
segments as normal components. -/
theorem pathComponents_renderSegs (out : List String)
    (hgood : ∀ seg ∈ out, seg.data ≠ [] ∧ '/' ∉ seg.data ∧
      seg.data ≠ ['.'] ∧ seg.data ≠ ['.', '.']) :
    pathComponents (renderSegs out) = out.map Component.normal := by
  cases out with
  | nil => rfl
  | cons s0 rest =>
    have hsegs : ∀ p ∈ (s0 :: rest).map String.data, p ≠ [] ∧ '/' ∉ p := by
      intro p hp
      rcases List.mem_map.mp hp with ⟨seg, hseg, rfl⟩
      exact ⟨(hgood seg hseg).1, (hgood seg hseg).2.1⟩
    have hsplit :=
      splitSlash_intercalateSlash ((s0 :: rest).map String.data) (by simp) hsegs
    have habs : isAbsChars (intercalateSlash ((s0 :: rest).map String.data)) = false := by
      have h0 := hgood s0 (List.mem_cons_self _ _)
      rcases hd : s0.data with _ | ⟨c, t⟩
      · exact absurd hd h0.1
      · have hcne : c ≠ '/' := by
          intro h
          exact h0.2.1 (by rw [hd, h]; exact List.mem_cons_self _ _)
        cases rest with
        | nil => simp [intercalateSlash, hd, isAbsChars, hcne]
        | cons b t' => simp [intercalateSlash, hd, isAbsChars, hcne]
    have hfilter1 : ((s0 :: rest).map String.data).filter (fun p => p ≠ []) =
        (s0 :: rest).map String.data := by
      rw [List.filter_eq_self]
      intro p hp
      rcases List.mem_map.mp hp with ⟨seg, hseg, rfl⟩
      simpa using (hgood seg hseg).1
    have hfilter2 : ((s0 :: rest).map String.data).filter (fun p => p ≠ ['.']) =
        (s0 :: rest).map String.data := by
      rw [List.filter_eq_self]
      intro p hp
      rcases List.mem_map.mp hp with ⟨seg, hseg, rfl⟩
      simpa using (hgood seg hseg).2.2.1
    have hlead : leadCurDir ((s0 :: rest).map String.data) = [] := by
      simp only [List.map_cons, leadCurDir]
      rw [if_neg (hgood s0 (List.mem_cons_self _ _)).2.2.1]
    show parseComps (renderSegs (s0 :: rest)).data = _
    have hdata : (renderSegs (s0 :: rest)).data =
        intercalateSlash ((s0 :: rest).map String.data) := rfl
    unfold parseComps
    rw [hdata, habs, hsplit, hfilter1, hfilter2, hlead]
    simp only [Bool.false_eq_true, if_false, List.nil_append, List.append_nil]
    rw [List.map_map]
    apply List.map_congr_left
    intro seg hseg
    simp only [Function.comp_apply]
    rw [if_neg (hgood seg hseg).2.2.2]

/-- On lists of normal components, the normalizer keeps exactly the names. -/
theorem filterMap_subst_all_normal (cs : List Component)
    (h : ∀ c ∈ cs, ∃ nm, c = Component.normal nm) :
    (cs.filterMap componentSubst).map Component.normal = cs := by
  induction cs with
  | nil => rfl
  | cons c rest ih =>
    rcases h c (List.mem_cons_self _ _) with ⟨nm, rfl⟩
    simp only [List.filterMap_cons, componentSubst, List.map_cons]
    rw [ih (fun c hc => h c (List.mem_cons_of_mem _ hc))]

/-- Claim C1: `resource_relpath` processes the input path's components in
order, producing exactly the concatenation in which volume prefixes and `.`
are discarded, the root anchor becomes `_root_`, `..` becomes `_up_`, and
normal names are kept verbatim; in particular the three example paths of
the spec normalize as stated. -/
theorem resource_relpath_spec :
    (∀ cs : List Component, resource_relpath cs = cs.filterMap componentSubst) ∧
    renderSegs (resource_relpath (pathComponents "../../images/wheel.png")) =
      "_up_/_up_/images/wheel.png" ∧
    renderSegs (resource_relpath (pathComponents "/home/user/crab.png")) =
      "_root_/home/user/crab.png" ∧
    renderSegs (resource_relpath (pathComponents "./data/images/button.png")) =
      "data/images/button.png" :=
  ⟨resource_relpath_eq_filterMap, by decide, by decide, by decide⟩

/-- Claim C3: for every input path, the normalized output contains no root
anchor and no literal `..` component — in particular it does not begin with
a root anchor — so joined under a fixed resource root it cannot escape it. -/
theorem resource_relpath_no_escape (s : String) :
    Component.rootDir ∉ pathComponents (renderSegs (resource_relpath (pathComponents s))) ∧
    Component.parentDir ∉ pathComponents (renderSegs (resource_relpath (pathComponents s))) := by
  rw [pathComponents_renderSegs (resource_relpath (pathComponents s))
    (fun seg hseg => resource_relpath_seg_good s seg hseg)]
  constructor
  · intro h
    rcases List.mem_map.mp h with ⟨seg, _, hseg⟩
    cases hseg
  · intro h
    rcases List.mem_map.mp h with ⟨seg, _, hseg⟩
    cases hseg

/-- Counterexample to claim C5 as stated: the spec's own example path
`./data/images/button.png` contains no parent-traversal and no root-anchor
component, yet `resource_relpath` is not the identity on it (the leading
`.` component is discarded), comparing paths the way Rust compares `Path`s
(by their component lists). -/
theorem resource_relpath_not_identity :
    Component.parentDir ∉ pathComponents "./data/images/button.png" ∧
    Component.rootDir ∉ pathComponents "./data/images/button.png" ∧
    pathComponents (renderSegs (resource_relpath (pathComponents "./data/images/button.png"))) ≠
      pathComponents "./data/images/button.png" := by
  refine ⟨by decide, by decide, by decide⟩

/-- Claim C5, amended: `resource_relpath` is the identity on paths all of
whose components are normal names (no parent-traversal, no root anchor, no
current-directory component, no volume prefix), comparing paths by their
component lists as Rust `Path` equality does. -/
theorem resource_relpath_identity (s : String)
    (h : ∀ c ∈ pathComponents s, ∃ nm, c = Component.normal nm) :
    pathComponents (renderSegs (resource_relpath (pathComponents s))) =
      pathComponents s := by
  rw [pathComponents_renderSegs (resource_relpath (pathComponents s))
    (fun seg hseg => resource_relpath_seg_good s seg hseg)]
  rw [resource_relpath_eq_filterMap]
  exact filterMap_subst_all_normal _ h

theorem resource_relpath_identity_witness :
    (∀ c ∈ pathComponents "data/images/button.png", ∃ nm, c = Component.normal nm) ∧
    pathComponents (renderSegs (resource_relpath (pathComponents "data/images/button.png"))) =
      pathComponents "data/images/button.png" := by
  have hpc : pathComponents "data/images/button.png" =
      [Component.normal "data", Component.normal "images", Component.normal "button.png"] := by
    decide
  have h : ∀ c ∈ pathComponents "data/images/button.png", ∃ nm, c = Component.normal nm := by
    rw [hpc]
    intro c hc
    rcases List.mem_cons.mp hc with h | hc
    · exact ⟨_, h⟩
    rcases List.mem_cons.mp hc with h | hc
    · exact ⟨_, h⟩
    rcases List.mem_cons.mp hc with h | hc
    · exact ⟨_, h⟩
    · cases hc
  exact ⟨h, resource_relpath_identity "data/images/button.png" h⟩

/-- Counterexample to claim C4 as stated: the distinct paths `..` and
`_up_` (distinct as Rust paths, i.e. with different component lists)
normalize to the same output, so `resource_relpath` is not injective. -/
theorem resource_relpath_not_injective :
    pathComponents ".." ≠ pathComponents "_up_" ∧
    resource_relpath (pathComponents "..") = resource_relpath (pathComponents "_up_") := by
  refine ⟨by decide, by decide⟩

theorem plain_subst_some (c : Component) (hc : plainComp c = true) :
    ∃ u, componentSubst c = some u := by
  cases c with
  | prefixComp s => simp [plainComp] at hc
  | curDir => simp [plainComp] at hc
  | rootDir => exact ⟨_, rfl⟩
  | parentDir => exact ⟨_, rfl⟩
  | normal s => exact ⟨_, rfl⟩

theorem componentSubst_inj (c d : Component) (hc : plainComp c = true)
    (hd : plainComp d = true) (h : componentSubst c = componentSubst d) : c = d := by
  cases c <;> cases d <;> simp_all [plainComp, componentSubst]

/-- Claim C4, amended: `resource_relpath` is injective on paths that contain
no volume-prefix and no current-directory components and none of whose
normal components are the literal sentinel names `_root_` or `_up_`. -/
theorem resource_relpath_injOn (cs ds : List Component)
    (hcs : ∀ c ∈ cs, plainComp c = true) (hds : ∀ c ∈ ds, plainComp c = true)
    (h : resource_relpath cs = resource_relpath ds) : cs = ds := by
  rw [resource_relpath_eq_filterMap, resource_relpath_eq_filterMap] at h
  induction cs generalizing ds with
  | nil =>
    cases ds with
    | nil => rfl
    | cons d ds' =>
      obtain ⟨v, hv⟩ := plain_subst_some d (hds d (List.mem_cons_self _ _))
      rw [List.filterMap_nil, List.filterMap_cons, hv] at h
      cases h
  | cons c cs' ih =>
    cases ds with
    | nil =>
      obtain ⟨u, hu⟩ := plain_subst_some c (hcs c (List.mem_cons_self _ _))
      rw [List.filterMap_nil, List.filterMap_cons, hu] at h
      cases h
    | cons d ds' =>
      have hc := hcs c (List.mem_cons_self _ _)
      have hd := hds d (List.mem_cons_self _ _)
      obtain ⟨u, hu⟩ := plain_subst_some c hc
      obtain ⟨v, hv⟩ := plain_subst_some d hd
      rw [List.filterMap_cons, List.filterMap_cons, hu, hv] at h
      injection h with h1 h2
      have hcd : c = d := componentSubst_inj c d hc hd (by rw [hu, hv, h1])
      rw [hcd, ih ds' (fun x hx => hcs x (List.mem_cons_of_mem _ hx))
        (fun x hx => hds x (List.mem_cons_of_mem _ hx)) h2]

theorem resource_relpath_injOn_witness :
    (∀ c ∈ [Component.parentDir, Component.normal "a"], plainComp c = true) ∧
    ([Component.parentDir, Component.normal "a"] =
      [Component.parentDir, Component.normal "a"]) :=
  ⟨by decide,
    resource_relpath_injOn [Component.parentDir, Component.normal "a"]
      [Component.parentDir, Component.normal "a"] (by decide) (by decide) rfl⟩

/-!
The second part embeds the filesystem helpers `copy_file`, `read_file` and
`copy_dir` of `src/bundle/common.rs`.  The filesystem is modelled as a
rooted tree of nodes: directories carry an association list of named
children, regular files carry their bytes, and symlinks carry their raw
(never dereferenced) target path.  Paths are an absolute-flag plus a
component list; the process working directory is fixed at the root, so a
relative path resolves from the root, except that the empty relative path
stats as not-existing, matching `stat("")`.  `exists`, `is_file` and
`is_dir` follow a final chain of symlinks (with the usual loop limit of
40); the model resolves symlinks only in final position, i.e. it models
trees whose directory spine is made of real directories.  Rust panics
(`unwrap` on `None`) are modelled by the distinguished error `panicked`.
-/

theorem isLead_refl (u : List String) : IsLead u u := ⟨[], List.append_nil u⟩

theorem isLead_nil_left (v : List String) : IsLead [] v := ⟨v, rfl⟩

theorem isLead_nil_right (u : List String) : IsLead u [] ↔ u = [] := by
  constructor
  · rintro ⟨w, hw⟩
    exact (List.append_eq_nil.mp hw).1
  · rintro rfl
    exact isLead_nil_left []

theorem isLead_cons (a b : String) (u v : List String) :
    IsLead (a :: u) (b :: v) ↔ a = b ∧ IsLead u v := by
  constructor
  · rintro ⟨w, hw⟩
    injection hw with h1 h2
    exact ⟨h1, w, h2⟩
  · rintro ⟨rfl, w, hw⟩
    exact ⟨w, by rw [List.cons_append, hw]⟩

theorem isLead_append_left (u w : List String) : IsLead u (u ++ w) := ⟨w, rfl⟩

theorem isLead_append_cancel (c a b : List String) :
    IsLead (c ++ a) (c ++ b) ↔ IsLead a b := by
  constructor
  · rintro ⟨w, hw⟩
    rw [List.append_assoc] at hw
    exact ⟨w, List.append_cancel_left hw⟩
  · rintro ⟨w, hw⟩
    exact ⟨w, by rw [List.append_assoc, hw]⟩

theorem isLead_trans (u v w : List String) (h1 : IsLead u v) (h2 : IsLead v w) :
    IsLead u w := by
  rcases h1 with ⟨x, rfl⟩
  rcases h2 with ⟨y, rfl⟩
  exact ⟨x ++ y, (List.append_assoc u x y).symm⟩

theorem findEntry_mem (es : List (String × Node)) (c : String) (ch : Node)
    (h : findEntry es c = some ch) : (c, ch) ∈ es := by
  induction es with
  | nil => cases h
  | cons e rest ih =>
    rcases e with ⟨nm, nd⟩
    by_cases hnm : nm = c
    · subst hnm
      rw [findEntry, if_pos rfl] at h
      injection h with h
      subst h
      exact List.mem_cons_self _ _
    · rw [findEntry, if_neg hnm] at h
      exact List.mem_cons_of_mem _ (ih h)

theorem findEntry_of_mem_nodup (es : List (String × Node)) (c : String) (ch : Node)
    (hnd : (es.map Prod.fst).Nodup) (h : (c, ch) ∈ es) : findEntry es c = some ch := by
  induction es with
  | nil => cases h
  | cons e rest ih =>
    rcases e with ⟨nm, nd⟩
    rcases List.mem_cons.mp h with h | h
    · injection h with h1 h2
      subst h1; subst h2
      rw [findEntry, if_pos rfl]
    · have hnm : nm ≠ c := by
        intro hEq
        subst hEq
        have : nm ∈ rest.map Prod.fst := List.mem_map.mpr ⟨(nm, ch), h, rfl⟩
        exact (List.nodup_cons.mp hnd).1 this
      rw [findEntry, if_neg hnm]
      exact ih (List.nodup_cons.mp hnd).2 h

theorem findEntry_replace_self (es : List (String × Node)) (c : String) (ch new : Node)
    (h : findEntry es c = some ch) :
    findEntry (replaceEntry es c new) c = some new := by
  induction es with
  | nil => cases h
  | cons e rest ih =>
    rcases e with ⟨nm, nd⟩
    by_cases hnm : nm = c
    · subst hnm
      rw [replaceEntry, if_pos rfl, findEntry, if_pos rfl]
    · rw [findEntry, if_neg hnm] at h
      rw [replaceEntry, if_neg hnm, findEntry, if_neg hnm]
      exact ih h

theorem findEntry_replace_ne (es : List (String × Node)) (c d : String) (new : Node)
    (hne : d ≠ c) : findEntry (replaceEntry es c new) d = findEntry es d := by
  induction es with
  | nil => rfl
  | cons e rest ih =>
    rcases e with ⟨nm, nd⟩
    by_cases hnm : nm = c
    · subst hnm
      have : nm ≠ d := fun h => hne h.symm
      rw [replaceEntry, if_pos rfl, findEntry, if_neg this, findEntry, if_neg this]
    · rw [replaceEntry, if_neg hnm]
      by_cases hd : nm = d
      · subst hd
        rw [findEntry, if_pos rfl, findEntry, if_pos rfl]
      · rw [findEntry, if_neg hd, findEntry, if_neg hd]
        exact ih

theorem findEntry_append_single (es : List (String × Node)) (c d : String) (new : Node) :
    findEntry (es ++ [(c, new)]) d =
      match findEntry es d with
      | some ch => some ch
      | none => if c = d then some new else none := by
  induction es with
  | nil => simp [findEntry]
  | cons e rest ih =>
    rcases e with ⟨nm, nd⟩
    by_cases hnm : nm = d
    · subst hnm
      rw [List.cons_append, findEntry, if_pos rfl, findEntry, if_pos rfl]
    · rw [List.cons_append, findEntry, if_neg hnm, findEntry, if_neg hnm, ih]

/-- Looking up a concatenated path descends through the first part. -/
theorem lookupN_append (nd : Node) (u v : List String) :
    lookupN nd (u ++ v) = (lookupN nd u).bind (fun m => lookupN m v) := by
  induction u generalizing nd with
  | nil => simp [lookupN]
  | cons c u' ih =>
    cases nd with
    | file bs => rfl
    | symlink t => rfl
    | dir es =>
      rw [List.cons_append, lookupN, lookupN]
      cases findEntry es c with
      | none => rfl
      | some ch => exact ih ch

theorem lookupN_some_of_lead (nd : Node) (u v : List String) (hl : IsLead u v)
    (h : (lookupN nd v).isSome) : (lookupN nd u).isSome := by
  rcases hl with ⟨w, rfl⟩
  rw [lookupN_append] at h
  cases hu : lookupN nd u with
  | none => rw [hu] at h; cases h
  | some m => rfl

theorem lookupN_nil (nd : Node) : lookupN nd [] = some nd := by cases nd <;> rfl

theorem lookupN_file (bs : List Nat) (c : String) (rest : List String) :
    lookupN (.file bs) (c :: rest) = none := rfl

theorem lookupN_symlink (t : RPath) (c : String) (rest : List String) :
    lookupN (.symlink t) (c :: rest) = none := rfl

theorem lookupN_dir_found (es : List (String × Node)) (c : String) (ch : Node)
    (rest : List String) (h : findEntry es c = some ch) :
    lookupN (.dir es) (c :: rest) = lookupN ch rest := by
  rw [lookupN, h]

theorem lookupN_dir_missing (es : List (String × Node)) (c : String)
    (rest : List String) (h : findEntry es c = none) :
    lookupN (.dir es) (c :: rest) = none := by
  rw [lookupN, h]

theorem setPath_nil (nd new : Node) : setPath nd [] new = some new := by cases nd <;> rfl

theorem setPath_file (bs : List Nat) (c : String) (rest : List String) (new : Node) :
    setPath (.file bs) (c :: rest) new = none := rfl

theorem setPath_symlink (t : RPath) (c : String) (rest : List String) (new : Node) :
    setPath (.symlink t) (c :: rest) new = none := rfl

theorem setPath_dir_found (es : List (String × Node)) (c : String) (ch : Node)
    (rest : List String) (new : Node) (h : findEntry es c = some ch) :
    setPath (.dir es) (c :: rest) new =
      (setPath ch rest new).map (fun ch' => Node.dir (replaceEntry es c ch')) := by
  have hrfl : setPath (.dir es) (c :: rest) new =
      (match findEntry es c with
       | some ch => (setPath ch rest new).map (fun ch' => Node.dir (replaceEntry es c ch'))
       | none =>
         match rest with
         | [] => some (.dir (es ++ [(c, new)]))
         | _ :: _ => none) := rfl
  rw [hrfl, h]

theorem setPath_dir_insert (es : List (String × Node)) (c : String) (new : Node)
    (h : findEntry es c = none) :
    setPath (.dir es) [c] new = some (.dir (es ++ [(c, new)])) := by
  rw [setPath, h]

theorem setPath_dir_deep_missing (es : List (String × Node)) (c d : String)
    (q : List String) (new : Node) (h : findEntry es c = none) :
    setPath (.dir es) (c :: d :: q) new = none := by
  rw [setPath, h]

theorem mkdirp_nil_dir (es : List (String × Node)) : mkdirp (.dir es) [] = some (.dir es) := rfl

theorem mkdirp_nil_file (bs : List Nat) : mkdirp (.file bs) [] = none := rfl

theorem mkdirp_nil_symlink (t : RPath) : mkdirp (.symlink t) [] = none := rfl

theorem mkdirp_file (bs : List Nat) (c : String) (rest : List String) :
    mkdirp (.file bs) (c :: rest) = none := rfl

theorem mkdirp_symlink (t : RPath) (c : String) (rest : List String) :
    mkdirp (.symlink t) (c :: rest) = none := rfl

theorem mkdirp_dir_found (es : List (String × Node)) (c : String) (ch : Node)
    (rest : List String) (h : findEntry es c = some ch) :
    mkdirp (.dir es) (c :: rest) =
      (mkdirp ch rest).map (fun ch' => Node.dir (replaceEntry es c ch')) := by
  rw [mkdirp, h]

theorem mkdirp_dir_missing (es : List (String × Node)) (c : String)
    (rest : List String) (h : findEntry es c = none) :
    mkdirp (.dir es) (c :: rest) =
      (mkdirp (.dir []) rest).map (fun ch' => Node.dir (es ++ [(c, ch')])) := by
  rw [mkdirp, h]

theorem setPath_lookup_self (w : List String) (nd new nd' : Node)
    (h : setPath nd w new = some nd') : lookupN nd' w = some new := by
  induction w generalizing nd nd' with
  | nil =>
    rw [setPath_nil] at h
    injection h with h
    subst h
    exact lookupN_nil new
  | cons c rest ih =>
    cases nd with
    | file bs => rw [setPath_file] at h; cases h
    | symlink t => rw [setPath_symlink] at h; cases h
    | dir es =>
      cases hfind : findEntry es c with
      | some ch =>
        rw [setPath_dir_found es c ch rest new hfind] at h
        rcases Option.map_eq_some'.mp h with ⟨ch', hset, rfl⟩
        rw [lookupN_dir_found _ c ch' rest (findEntry_replace_self es c ch ch' hfind)]
        exact ih ch ch' hset
      | none =>
        cases rest with
        | nil =>
          rw [setPath_dir_insert es c new hfind] at h
          injection h with h
          subst h
          have hfd : findEntry (es ++ [(c, new)]) c = some new := by
            rw [findEntry_append_single, hfind, if_pos rfl]
          rw [lookupN_dir_found _ c new [] hfd]
          exact lookupN_nil new
        | cons d q => rw [setPath_dir_deep_missing es c d q new hfind] at h; cases h

theorem setPath_lookup_other (w : List String) (nd new nd' : Node)
    (h : setPath nd w new = some nd') (q : List String)
    (h1 : ¬ IsLead w q) (h2 : ¬ IsLead q w) : lookupN nd' q = lookupN nd q := by
  induction w generalizing nd nd' q with
  | nil => exact absurd (isLead_nil_left q) h1
  | cons c rest ih =>
    cases q with
    | nil => exact absurd (isLead_nil_left (c :: rest)) h2
    | cons d q' =>
      cases nd with
      | file bs => rw [setPath_file] at h; cases h
      | symlink t => rw [setPath_symlink] at h; cases h
      | dir es =>
        cases hfind : findEntry es c with
        | some ch =>
          rw [setPath_dir_found es c ch rest new hfind] at h
          rcases Option.map_eq_some'.mp h with ⟨ch', hset, rfl⟩
          by_cases hdc : d = c
          · subst hdc
            rw [lookupN_dir_found _ d ch' q' (findEntry_replace_self es d ch ch' hfind),
              lookupN_dir_found es d ch q' hfind]
            exact ih ch ch' hset q'
              (fun hl => h1 ((isLead_cons _ _ _ _).mpr ⟨rfl, hl⟩))
              (fun hl => h2 ((isLead_cons _ _ _ _).mpr ⟨rfl, hl⟩))
          · rw [lookupN, findEntry_replace_ne es c d ch' hdc, lookupN]
        | none =>
          cases rest with
          | nil =>
            rw [setPath_dir_insert es c new hfind] at h
            injection h with h
            subst h
            by_cases hdc : d = c
            · subst hdc
              exact absurd ((isLead_cons _ _ _ _).mpr ⟨rfl, isLead_nil_left q'⟩) h1
            · rw [lookupN, findEntry_append_single, lookupN]
              cases hfd : findEntry es d with
              | some ch => rfl
              | none => rw [if_neg (fun hEq => hdc hEq.symm)]
          | cons e q2 => rw [setPath_dir_deep_missing es c e q2 new hfind] at h; cases h

theorem setPath_ancestors_dir (w : List String) (nd new nd' : Node)
    (h : setPath nd w new = some nd') (q : List String)
    (hq : IsLead q w) (hne : q ≠ w) :
    (∃ es0, lookupN nd q = some (.dir es0)) ∧
      (∃ es1, lookupN nd' q = some (.dir es1)) := by
  induction w generalizing nd nd' q with
  | nil =>
    rw [isLead_nil_right] at hq
    exact absurd hq hne
  | cons c rest ih =>
    cases q with
    | nil =>
      cases nd with
      | file bs => rw [setPath_file] at h; cases h
      | symlink t => rw [setPath_symlink] at h; cases h
      | dir es =>
        cases hfind : findEntry es c with
        | some ch =>
          rw [setPath_dir_found es c ch rest new hfind] at h
          rcases Option.map_eq_some'.mp h with ⟨ch', _, rfl⟩
          exact ⟨⟨es, lookupN_nil _⟩, ⟨_, lookupN_nil _⟩⟩
        | none =>
          cases rest with
          | nil =>
            rw [setPath_dir_insert es c new hfind] at h
            injection h with h
            subst h
            exact ⟨⟨es, lookupN_nil _⟩, ⟨_, lookupN_nil _⟩⟩
          | cons d q2 => rw [setPath_dir_deep_missing es c d q2 new hfind] at h; cases h
    | cons d q' =>
      rcases (isLead_cons _ _ _ _).mp hq with ⟨rfl, hq'⟩
      cases nd with
      | file bs => rw [setPath_file] at h; cases h
      | symlink t => rw [setPath_symlink] at h; cases h
      | dir es =>
        cases hfind : findEntry es d with
        | some ch =>
          rw [setPath_dir_found es d ch rest new hfind] at h
          rcases Option.map_eq_some'.mp h with ⟨ch', hset, rfl⟩
          have hne' : q' ≠ rest := fun hEq => hne (by rw [hEq])
          have hih := ih ch ch' hset q' hq' hne'
          constructor
          · rcases hih.1 with ⟨es0, h0⟩
            exact ⟨es0, by rw [lookupN_dir_found es d ch q' hfind]; exact h0⟩
          · rcases hih.2 with ⟨es1, h1⟩
            exact ⟨es1, by
              rw [lookupN_dir_found _ d ch' q' (findEntry_replace_self es d ch ch' hfind)]
              exact h1⟩
        | none =>
          cases rest with
          | nil =>
            rw [isLead_nil_right] at hq'
            subst hq'
            exact absurd rfl hne
          | cons e q2 => rw [setPath_dir_deep_missing es d e q2 new hfind] at h; cases h

theorem mkdirp_preserves (p : List String) (nd nd' : Node)
    (h : mkdirp nd p = some nd') (q : List String) :
    (∀ c, lookupN nd q = some (.file c) → lookupN nd' q = some (.file c)) ∧
      (∀ t, lookupN nd q = some (.symlink t) → lookupN nd' q = some (.symlink t)) ∧
      (∀ es0, lookupN nd q = some (.dir es0) → ∃ es1, lookupN nd' q = some (.dir es1)) := by
  induction p generalizing nd nd' q with
  | nil =>
    cases nd with
    | file bs => rw [mkdirp_nil_file] at h; cases h
    | symlink t => rw [mkdirp_nil_symlink] at h; cases h
    | dir es =>
      rw [mkdirp_nil_dir] at h
      injection h with h
      subst h
      exact ⟨fun c hc => hc, fun t ht => ht, fun es0 h0 => ⟨es0, h0⟩⟩
  | cons c rest ih =>
    cases nd with
    | file bs => rw [mkdirp_file] at h; cases h
    | symlink t => rw [mkdirp_symlink] at h; cases h
    | dir es =>
      cases hfind : findEntry es c with
      | some ch =>
        rw [mkdirp_dir_found es c ch rest hfind] at h
        rcases Option.map_eq_some'.mp h with ⟨ch', hmk, rfl⟩
        cases q with
        | nil =>
          refine ⟨fun c2 hc => ?_, fun t ht => ?_, fun es0 h0 => ⟨_, lookupN_nil _⟩⟩
          · rw [lookupN_nil] at hc; cases hc
          · rw [lookupN_nil] at ht; cases ht
        | cons d q' =>
          by_cases hdc : d = c
          · subst hdc
            rw [lookupN_dir_found es d ch q' hfind,
              lookupN_dir_found _ d ch' q' (findEntry_replace_self es d ch ch' hfind)]
            exact ih ch ch' hmk q'
          · have hrw : lookupN (Node.dir (replaceEntry es c ch')) (d :: q') =
                lookupN (Node.dir es) (d :: q') := by
              rw [lookupN, findEntry_replace_ne es c d ch' hdc, lookupN]
            rw [hrw]
            exact ⟨fun c2 hc => hc, fun t ht => ht, fun es0 h0 => ⟨es0, h0⟩⟩
      | none =>
        rw [mkdirp_dir_missing es c rest hfind] at h
        rcases Option.map_eq_some'.mp h with ⟨ch', hmk, rfl⟩
        cases q with
        | nil =>
          refine ⟨fun c2 hc => ?_, fun t ht => ?_, fun es0 h0 => ⟨_, lookupN_nil _⟩⟩
          · rw [lookupN_nil] at hc; cases hc
          · rw [lookupN_nil] at ht; cases ht
        | cons d q' =>
          by_cases hdc : d = c
          · subst hdc
            rw [lookupN_dir_missing es d q' hfind]
            refine ⟨fun c2 hc => ?_, fun t ht => ?_, fun es0 h0 => ?_⟩
            · cases hc
            · cases ht
            · cases h0
          · have hrw : lookupN (Node.dir (es ++ [(c, ch')])) (d :: q') =
                lookupN (Node.dir es) (d :: q') := by
              rw [lookupN, findEntry_append_single, lookupN]
              cases hfd : findEntry es d with
              | some ch2 => rfl
              | none => rw [if_neg (fun hEq => hdc hEq.symm)]
            rw [hrw]
            exact ⟨fun c2 hc => hc, fun t ht => ht, fun es0 h0 => ⟨es0, h0⟩⟩

/-- A path absent after `create_dir_all` was absent before it. -/
theorem mkdirp_none (p : List String) (nd nd' : Node)
    (h : mkdirp nd p = some nd') (q : List String)
    (hq : lookupN nd' q = none) : lookupN nd q = none := by
  cases hl : lookupN nd q with
  | none => rfl
  | some m =>
    exfalso
    rcases m with bs | t | es0
    · rw [(mkdirp_preserves p nd nd' h q).1 bs hl] at hq
      cases hq
    · rw [(mkdirp_preserves p nd nd' h q).2.1 t hl] at hq
      cases hq
    · rcases (mkdirp_preserves p nd nd' h q).2.2 es0 hl with ⟨es1, h1⟩
      rw [h1] at hq
      cases hq

theorem walkNode_file (c : List Nat) : walkNode (.file c) = [([], .file c)] := rfl

theorem walkNode_symlink (t : RPath) : walkNode (.symlink t) = [([], .symlink t)] := rfl

theorem walkNode_dir (es : List (String × Node)) :
    walkNode (.dir es) = ([], .dir es) :: walkKids es := rfl

theorem walkKids_nil : walkKids [] = [] := rfl

theorem walkKids_cons (nm : String) (ch : Node) (rest : List (String × Node)) :
    walkKids ((nm, ch) :: rest) =
      (walkNode ch).map (fun q => (nm :: q.1, q.2)) ++ walkKids rest := rfl

theorem mem_walkKids (es : List (String × Node)) (q : List String) (m : Node) :
    (q, m) ∈ walkKids es ↔
      ∃ nm ch q', (nm, ch) ∈ es ∧ q = nm :: q' ∧ (q', m) ∈ walkNode ch := by
  induction es with
  | nil =>
    rw [walkKids_nil]
    simp
  | cons e rest ih =>
    rcases e with ⟨nm, ch⟩
    rw [walkKids_cons]
    constructor
    · intro h
      rcases List.mem_append.mp h with h | h
      · rcases List.mem_map.mp h with ⟨⟨q', m'⟩, hmem, heq⟩
        injection heq with heq1 heq2
        subst heq2
        exact ⟨nm, ch, q', List.mem_cons_self _ _, heq1.symm, hmem⟩
      · rcases ih.mp h with ⟨nm2, ch2, q', hmem, heq, hw⟩
        exact ⟨nm2, ch2, q', List.mem_cons_of_mem _ hmem, heq, hw⟩
    · rintro ⟨nm2, ch2, q', hmem, rfl, hw⟩
      rcases List.mem_cons.mp hmem with h | h
      · injection h with h1 h2
        subst h1; subst h2
        exact List.mem_append.mpr (Or.inl (List.mem_map.mpr ⟨(q', m), hw, rfl⟩))
      · exact List.mem_append.mpr (Or.inr (ih.mpr ⟨nm2, ch2, q', h, rfl, hw⟩))

theorem walkNode_self (nd : Node) : ([], nd) ∈ walkNode nd := by
  cases nd with
  | file c => rw [walkNode_file]; exact List.mem_singleton.mpr rfl
  | symlink t => rw [walkNode_symlink]; exact List.mem_singleton.mpr rfl
  | dir es => rw [walkNode_dir]; exact List.mem_cons_self _ _

/-- Every structurally reachable node appears in the walk. -/
theorem lookupN_mem_walkNode (x : List String) (nd n : Node)
    (h : lookupN nd x = some n) : (x, n) ∈ walkNode nd := by
  induction x generalizing nd with
  | nil =>
    rw [lookupN_nil] at h
    injection h with h
    subst h
    exact walkNode_self nd
  | cons c x' ih =>
    cases nd with
    | file bs => rw [lookupN_file] at h; cases h
    | symlink t => rw [lookupN_symlink] at h; cases h
    | dir es =>
      cases hfind : findEntry es c with
      | some ch =>
        rw [lookupN_dir_found es c ch x' hfind] at h
        rw [walkNode_dir]
        exact List.mem_cons_of_mem _
          ((mem_walkKids es (c :: x') n).mpr
            ⟨c, ch, x', findEntry_mem es c ch hfind, rfl, ih ch h⟩)
      | none => rw [lookupN_dir_missing es c x' hfind] at h; cases h

/-- In a well-formed tree, every walked entry is structurally reachable at
its relative path. -/
theorem walkNode_mem_lookupN (x : List String) (nd n : Node) (hwf : WF nd)
    (h : (x, n) ∈ walkNode nd) : lookupN nd x = some n := by
  induction x generalizing nd with
  | nil =>
    rw [lookupN_nil]
    cases nd with
    | file c =>
      rw [walkNode_file] at h
      rcases List.mem_singleton.mp h with h
      injection h with h1 h2
      rw [h2]
    | symlink t =>
      rw [walkNode_symlink] at h
      rcases List.mem_singleton.mp h with h
      injection h with h1 h2
      rw [h2]
    | dir es =>
      rw [walkNode_dir] at h
      rcases List.mem_cons.mp h with h | h
      · injection h with h1 h2
        rw [h2]
      · rcases (mem_walkKids es [] n).mp h with ⟨nm, ch, q', _, heq, _⟩
        cases heq
  | cons c x' ih =>
    cases nd with
    | file bs =>
      rw [walkNode_file] at h
      rcases List.mem_singleton.mp h with h
      injection h with h1 h2
      cases h1
    | symlink t =>
      rw [walkNode_symlink] at h
      rcases List.mem_singleton.mp h with h
      injection h with h1 h2
      cases h1
    | dir es =>
      rw [walkNode_dir] at h
      rcases List.mem_cons.mp h with h | h
      · injection h with h1 h2
        cases h1
      · rcases (mem_walkKids es (c :: x') n).mp h with ⟨nm, ch, q', hmem, heq, hw⟩
        injection heq with he1 he2
        subst he1
        subst he2
        cases hwf with
        | dir es hnd hch =>
          rw [lookupN_dir_found es c ch x' (findEntry_of_mem_nodup es c ch hnd hmem)]
          exact ih ch (hch (c, ch) hmem) hw

theorem WF_lookupN (p : List String) (nd m : Node) (hwf : WF nd)
    (h : lookupN nd p = some m) : WF m := by
  induction p generalizing nd with
  | nil =>
    rw [lookupN_nil] at h
    injection h with h
    subst h
    exact hwf
  | cons c p' ih =>
    cases nd with
    | file bs => rw [lookupN_file] at h; cases h
    | symlink t => rw [lookupN_symlink] at h; cases h
    | dir es =>
      cases hfind : findEntry es c with
      | some ch =>
        rw [lookupN_dir_found es c ch p' hfind] at h
        cases hwf with
        | dir es hnd hch => exact ih ch (hch (c, ch) (findEntry_mem es c ch hfind)) h
      | none => rw [lookupN_dir_missing es c p' hfind] at h; cases h

theorem sizeOf_node_pos (nd : Node) : 0 < sizeOf nd := by
  cases nd <;> simp

/-- In a pre-order walk of a well-formed tree, a later entry's path never
leads (is never an initial segment of) an earlier entry's path. -/
theorem walkKids_pairwise (es : List (String × Node))
    (hnd : (es.map Prod.fst).Nodup)
    (hPW : ∀ e ∈ es, List.Pairwise (fun a b => ¬ IsLead b.1 a.1) (walkNode e.2)) :
    List.Pairwise (fun (a b : List String × Node) => ¬ IsLead b.1 a.1) (walkKids es) := by
  induction es with
  | nil => rw [walkKids_nil]; exact List.Pairwise.nil
  | cons e rest ih =>
    rcases e with ⟨nm, ch⟩
    rw [walkKids_cons]
    rw [List.pairwise_append]
    refine ⟨?_, ?_, ?_⟩
    · rw [List.pairwise_map]
      refine (hPW (nm, ch) (List.mem_cons_self _ _)).imp ?_
      intro a b hab hl
      exact hab ((isLead_cons _ _ _ _).mp hl).2
    · exact ih (List.nodup_cons.mp hnd).2 (fun e he => hPW e (List.mem_cons_of_mem _ he))
    · intro a ha b hb
      rcases List.mem_map.mp ha with ⟨⟨q1, m1⟩, _, heq⟩
      rcases b with ⟨qb, mb⟩
      rcases (mem_walkKids rest qb mb).mp hb with ⟨nm2, ch2, q', hmem2, heq2, _⟩
      subst heq2
      rw [← heq]
      intro hl
      have hne : nm2 ≠ nm := by
        intro hEq
        subst hEq
        exact (List.nodup_cons.mp hnd).1 (List.mem_map.mpr ⟨(nm2, ch2), hmem2, rfl⟩)
      exact hne ((isLead_cons _ _ _ _).mp hl).1

theorem walkNode_pairwise_aux (N : Nat) :
    ∀ nd : Node, sizeOf nd ≤ N → WF nd →
      List.Pairwise (fun (a b : List String × Node) => ¬ IsLead b.1 a.1) (walkNode nd) := by
  induction N with
  | zero =>
    intro nd hsz _
    have := sizeOf_node_pos nd
    omega
  | succ N ih =>
    intro nd hsz hwf
    cases nd with
    | file c => rw [walkNode_file]; simp
    | symlink t => rw [walkNode_symlink]; simp
    | dir es =>
      rw [walkNode_dir]
      refine List.Pairwise.cons ?_ ?_
      · rintro ⟨qb, mb⟩ hb hl
        rcases (mem_walkKids es qb mb).mp hb with ⟨nm, ch, q', _, heq, _⟩
        subst heq
        rw [isLead_nil_right] at hl
        cases hl
      · cases hwf with
        | dir es hnd hch =>
          refine walkKids_pairwise es hnd ?_
          intro e he
          refine ih e.2 ?_ (hch e he)
          have h1 : sizeOf e < sizeOf es := List.sizeOf_lt_of_mem he
          have h2 : sizeOf (Node.dir es) = 1 + sizeOf es := by simp
          have h3 : sizeOf e.2 < sizeOf e := by
            rcases e with ⟨nm, ch⟩
            simp
          omega

theorem walkNode_pairwise (nd : Node) (hwf : WF nd) :
    List.Pairwise (fun (a b : List String × Node) => ¬ IsLead b.1 a.1) (walkNode nd) :=
  walkNode_pairwise_aux (sizeOf nd) nd le_rfl hwf

theorem join_comps (p : RPath) (r : List String) : (p.join r).comps = p.comps ++ r := rfl

theorem statN_lookup_file (g : Node) (fuel : Nat) (p : List String) (c : List Nat)
    (h0 : 0 < fuel) (h : lookupN g p = some (.file c)) :
    statN g fuel p = some (.file c) := by
  cases fuel with
  | zero => cases h0
  | succ m => rw [statN, h]

theorem statN_lookup_dir (g : Node) (fuel : Nat) (p : List String)
    (es : List (String × Node)) (h0 : 0 < fuel) (h : lookupN g p = some (.dir es)) :
    statN g fuel p = some (.dir es) := by
  cases fuel with
  | zero => cases h0
  | succ m => rw [statN, h]

theorem statN_lookup_none (g : Node) (fuel : Nat) (p : List String)
    (h : lookupN g p = none) : statN g fuel p = none := by
  cases fuel with
  | zero => rw [statN]
  | succ m => rw [statN, h]

theorem statPath_some_elim (g : Node) (p : RPath) (m : Node)
    (h : statPath g p = some m) : statN g 40 p.comps = some m := by
  unfold statPath at h
  split at h
  · cases h
  · exact h

theorem existsP_false_elim (g : Node) (p : RPath) (h : existsP g p = false) :
    statPath g p = none := by
  unfold existsP at h
  cases hst : statPath g p with
  | none => rfl
  | some m => rw [hst] at h; cases h

theorem isDirP_true_elim (g : Node) (p : RPath) (h : isDirP g p = true) :
    ∃ es, statPath g p = some (.dir es) := by
  unfold isDirP at h
  cases hst : statPath g p with
  | none => rw [hst] at h; cases h
  | some m =>
    cases m with
    | file c => rw [hst] at h; cases h
    | symlink t => rw [hst] at h; cases h
    | dir es => exact ⟨es, rfl⟩

theorem isFileP_true_elim (g : Node) (p : RPath) (h : isFileP g p = true) :
    ∃ c, statPath g p = some (.file c) := by
  unfold isFileP at h
  cases hst : statPath g p with
  | none => rw [hst] at h; cases h
  | some m =>
    cases m with
    | file c => exact ⟨c, rfl⟩
    | symlink t => rw [hst] at h; cases h
    | dir es => rw [hst] at h; cases h

theorem createDir_inv (g : Node) (p : RPath) (g1 : Node)
    (h : createDir g p = some g1) :
    lookupN g p.comps = none ∧ setPath g p.comps (.dir []) = some g1 := by
  unfold createDir at h
  cases hl : lookupN g p.comps with
  | some m => rw [hl] at h; cases h
  | none => rw [hl] at h; exact ⟨rfl, h⟩

theorem createSymlink_inv (g : Node) (target dst : RPath) (g1 : Node)
    (h : createSymlink g target dst = some g1) :
    lookupN g dst.comps = none ∧ setPath g dst.comps (.symlink target) = some g1 := by
  unfold createSymlink at h
  cases hl : lookupN g dst.comps with
  | some m => rw [hl] at h; cases h
  | none => rw [hl] at h; exact ⟨rfl, h⟩

theorem writeFile_inv (g : Node) (p : List String) (c : List Nat) (g1 : Node)
    (h : writeFile g p c = some g1) : setPath g p (.file c) = some g1 := by
  unfold writeFile at h
  cases hl : lookupN g p with
  | none => rw [hl] at h; exact h
  | some m =>
    cases m with
    | file c0 => rw [hl] at h; exact h
    | symlink t => rw [hl] at h; cases h
    | dir es => rw [hl] at h; cases h

theorem copyOp_inv (g : Node) (src dst : RPath) (g1 : Node)
    (h : copyOp g src dst = some g1) :
    ∃ c, statPath g src = some (.file c) ∧ writeFile g dst.comps c = some g1 := by
  unfold copyOp at h
  cases hst : statPath g src with
  | none => rw [hst] at h; cases h
  | some m =>
    cases m with
    | file c => rw [hst] at h; exact ⟨c, rfl, h⟩
    | symlink t => rw [hst] at h; cases h
    | dir es => rw [hst] at h; cases h

theorem kindPreserved_refl (g : Node) (q : List String) : kindPreserved g g q :=
  ⟨fun _ hc => hc, fun _ ht => ht, fun es0 h0 => ⟨es0, h0⟩⟩

theorem kindPreserved_trans (g g1 g2 : Node) (q : List String)
    (h1 : kindPreserved g g1 q) (h2 : kindPreserved g1 g2 q) :
    kindPreserved g g2 q := by
  refine ⟨fun c hc => h2.1 c (h1.1 c hc), fun t ht => h2.2.1 t (h1.2.1 t ht), fun es0 h0 => ?_⟩
  rcases h1.2.2 es0 h0 with ⟨es1, he1⟩
  exact h2.2.2 es1 he1

theorem copyEntry_ok (fromP toP : RPath) (g g1 : Node) (x : List String) (n : Node)
    (hsrc : srcIntact fromP g x n)
    (h : copyEntry fromP toP g (x, n) = some g1) :
    stepSpec g g1 (toP.comps ++ x) n := by
  cases n with
  | file c =>
    have hrfl : copyEntry fromP toP g (x, .file c) =
        copyOp g (fromP.join x) (toP.join x) := rfl
    rw [hrfl] at h
    rcases copyOp_inv g _ _ g1 h with ⟨c0, hst, hwrite⟩
    have hsrc' : lookupN g (fromP.comps ++ x) = some (.file c) := hsrc
    have h40 : statN g 40 (fromP.join x).comps = some (.file c) := by
      rw [join_comps]
      exact statN_lookup_file g 40 _ c (by omega) hsrc'
    have hc0 : c0 = c := by
      have := statPath_some_elim g _ _ hst
      rw [h40] at this
      injection this with this
      injection this with this
      exact this.symm
    subst hc0
    have hset : setPath g (toP.comps ++ x) (.file c0) = some g1 := by
      have := writeFile_inv g _ c0 g1 hwrite
      rw [join_comps] at this
      exact this
    refine ⟨setPath_lookup_self _ g _ g1 hset, ?_, ?_⟩
    · intro q h1 h2
      exact setPath_lookup_other _ g _ g1 hset q h1 h2
    · intro q h1 h2
      exact setPath_ancestors_dir _ g _ g1 hset q h1 h2
  | symlink t =>
    have hsrc' : lookupN g (fromP.comps ++ x) = some (.symlink t) := hsrc
    have hread : readLink g (fromP.join x) = some t := by
      unfold readLink
      rw [join_comps, hsrc']
    have hrfl : copyEntry fromP toP g (x, .symlink t) =
        (match readLink g (fromP.join x) with
         | some target =>
           if isDirP g (fromP.join x) then symlink_dir g target (toP.join x)
           else symlink_file g target (toP.join x)
         | none => none) := rfl
    rw [hrfl, hread] at h
    simp only [symlink_dir, symlink_file, ite_self] at h
    rcases createSymlink_inv g t _ g1 h with ⟨hnone, hset⟩
    rw [join_comps] at hset
    refine ⟨setPath_lookup_self _ g _ g1 hset, ?_, ?_⟩
    · intro q h1 h2
      exact setPath_lookup_other _ g _ g1 hset q h1 h2
    · intro q h1 h2
      exact setPath_ancestors_dir _ g _ g1 hset q h1 h2
  | dir es0 =>
    have hrfl : copyEntry fromP toP g (x, .dir es0) = createDir g (toP.join x) := rfl
    rw [hrfl] at h
    rcases createDir_inv g _ g1 h with ⟨hnone, hset⟩
    rw [join_comps] at hset
    refine ⟨⟨[], setPath_lookup_self _ g _ g1 hset⟩, ?_, ?_⟩
    · intro q h1 h2
      exact setPath_lookup_other _ g _ g1 hset q h1 h2
    · intro q h1 h2
      exact setPath_ancestors_dir _ g _ g1 hset q h1 h2

theorem copyEntries_cons (fromP toP : RPath) (g : Node) (e : List String × Node)
    (rest : List (List String × Node)) :
    copyEntries fromP toP g (e :: rest) =
      (match copyEntry fromP toP g e with
       | none => (.error .ioFailure, g)
       | some g1 => copyEntries fromP toP g1 rest) := rfl

theorem copyEntries_sound (fromP toP : RPath) (es : List (List String × Node)) :
    ∀ g g' : Node,
      copyEntries fromP toP g es = (Except.ok (), g') →
      (∀ x n, (x, n) ∈ es → srcIntact fromP g x n) →
      (∀ x n, (x, n) ∈ es → ¬ IsLead toP.comps (fromP.comps ++ x)) →
      List.Pairwise (fun a b => ¬ IsLead b.1 a.1) es →
      (∀ x n, (x, n) ∈ es → destMatchesAt g' (toP.comps ++ x) n) ∧
        (∀ q, (∀ x n, (x, n) ∈ es → ¬ IsLead (toP.comps ++ x) q) →
          kindPreserved g g' q) := by
  induction es with
  | nil =>
    intro g g' h _ _ _
    rw [copyEntries] at h
    injection h with h1 h2
    subst h2
    exact ⟨fun x n hx => absurd hx (List.not_mem_nil _), fun q _ => kindPreserved_refl g q⟩
  | cons e rest ih =>
    rcases e with ⟨x, n⟩
    intro g g' h hsrc hfresh hord
    rw [copyEntries_cons] at h
    cases hce : copyEntry fromP toP g (x, n) with
    | none =>
      rw [hce] at h
      injection h with h1 h2
      cases h1
    | some g1 =>
      rw [hce] at h
      have hstep := copyEntry_ok fromP toP g g1 x n (hsrc x n (List.mem_cons_self _ _)) hce
      rcases hstep with ⟨hA, hB, hC⟩
      have hord' := List.pairwise_cons.mp hord
      have hsrc' : ∀ y m, (y, m) ∈ rest → srcIntact fromP g1 y m := by
        intro y m hy
        have hsy := hsrc y m (List.mem_cons_of_mem _ hy)
        have hfy := hfresh y m (List.mem_cons_of_mem _ hy)
        cases m with
        | dir es2 => trivial
        | file c =>
          show lookupN g1 (fromP.comps ++ y) = some (.file c)
          have hsy' : lookupN g (fromP.comps ++ y) = some (.file c) := hsy
          by_cases h1 : IsLead (toP.comps ++ x) (fromP.comps ++ y)
          · exact absurd (isLead_trans _ _ _ (isLead_append_left _ _) h1) hfy
          · by_cases h2 : IsLead (fromP.comps ++ y) (toP.comps ++ x)
            · have hne : fromP.comps ++ y ≠ toP.comps ++ x := by
                intro hEq
                exact h1 (hEq ▸ isLead_refl _)
              rcases (hC _ h2 hne).1 with ⟨es0, h0⟩
              rw [hsy'] at h0
              cases h0
            · rw [hB _ h1 h2]
              exact hsy'
        | symlink t =>
          show lookupN g1 (fromP.comps ++ y) = some (.symlink t)
          have hsy' : lookupN g (fromP.comps ++ y) = some (.symlink t) := hsy
          by_cases h1 : IsLead (toP.comps ++ x) (fromP.comps ++ y)
          · exact absurd (isLead_trans _ _ _ (isLead_append_left _ _) h1) hfy
          · by_cases h2 : IsLead (fromP.comps ++ y) (toP.comps ++ x)
            · have hne : fromP.comps ++ y ≠ toP.comps ++ x := by
                intro hEq
                exact h1 (hEq ▸ isLead_refl _)
              rcases (hC _ h2 hne).1 with ⟨es0, h0⟩
              rw [hsy'] at h0
              cases h0
            · rw [hB _ h1 h2]
              exact hsy'
      have hres := ih g1 g' h hsrc'
        (fun y m hy => hfresh y m (List.mem_cons_of_mem _ hy)) hord'.2
      rcases hres with ⟨hK1, hK2⟩
      constructor
      · intro y m hy
        rcases List.mem_cons.mp hy with heq | hy'
        · rw [show y = x from congrArg Prod.fst heq, show m = n from congrArg Prod.snd heq]
          have hq : ∀ z k, (z, k) ∈ rest → ¬ IsLead (toP.comps ++ z) (toP.comps ++ x) := by
            intro z k hz hl
            rw [isLead_append_cancel] at hl
            exact hord'.1 (z, k) hz hl
          have hkp := hK2 (toP.comps ++ x) hq
          cases n with
          | file c => exact hkp.1 c hA
          | symlink t => exact hkp.2.1 t hA
          | dir es2 =>
            rcases hA with ⟨es3, h3⟩
            exact hkp.2.2 es3 h3
        · exact hK1 y m hy'
      · intro q hq
        have hq_head : ¬ IsLead (toP.comps ++ x) q := hq x n (List.mem_cons_self _ _)
        have hkp1 : kindPreserved g g1 q := by
          by_cases h2 : IsLead q (toP.comps ++ x)
          · by_cases heq : q = toP.comps ++ x
            · exact absurd (by rw [heq]; exact isLead_refl _) hq_head
            · refine ⟨fun c hc => ?_, fun t ht => ?_, fun es0 h0 => ?_⟩
              · rcases (hC q h2 heq).1 with ⟨es2, h3⟩
                rw [hc] at h3
                cases h3
              · rcases (hC q h2 heq).1 with ⟨es2, h3⟩
                rw [ht] at h3
                cases h3
              · exact (hC q h2 heq).2
          · have heqv := hB q hq_head h2
            exact ⟨fun c hc => by rw [heqv]; exact hc,
              fun t ht => by rw [heqv]; exact ht,
              fun es0 h0 => ⟨es0, by rw [heqv]; exact h0⟩⟩
        exact kindPreserved_trans g g1 g' q hkp1
          (hK2 q (fun z k hz => hq z k (List.mem_cons_of_mem _ hz)))

theorem copy_dir_ok_elim (fs : Node) (a b : RPath) (fs' : Node)
    (h : copy_dir fs a b = (Except.ok (), fs')) :
    existsP fs a = true ∧ isDirP fs a = true ∧ existsP fs b = false ∧
      ∃ parent fs1 nodeA,
        b.parent = some parent ∧ mkdirp fs parent.comps = some fs1 ∧
          lookupN fs a.comps = some nodeA ∧
          copyEntries a b fs1 (walkNode nodeA) = (Except.ok (), fs') := by
  unfold copy_dir at h
  cases hx : existsP fs a with
  | false =>
    rw [hx, if_pos rfl] at h
    exact Except.noConfusion (congrArg Prod.fst h)
  | true =>
    rw [hx, if_neg (by decide)] at h
    cases hd : isDirP fs a with
    | false =>
      rw [hd, if_pos rfl] at h
      exact Except.noConfusion (congrArg Prod.fst h)
    | true =>
      rw [hd, if_neg (by decide)] at h
      cases hb : existsP fs b with
      | true =>
        rw [hb, if_pos rfl] at h
        exact Except.noConfusion (congrArg Prod.fst h)
      | false =>
        rw [hb, if_neg (by decide)] at h
        cases hpar : b.parent with
        | none =>
          rw [hpar] at h
          exact Except.noConfusion (congrArg Prod.fst h)
        | some parent =>
          rw [hpar] at h
          have h1 : (match mkdirp fs parent.comps with
              | none => (Except.error Err.ioFailure, fs)
              | some fs1 =>
                match lookupN fs a.comps with
                | none => (Except.error Err.ioFailure, fs1)
                | some nodeA => copyEntries a b fs1 (walkNode nodeA)) =
              (Except.ok (), fs') := h
          cases hmk : mkdirp fs parent.comps with
          | none =>
            rw [hmk] at h1
            exact Except.noConfusion (congrArg Prod.fst h1)
          | some fs1 =>
            rw [hmk] at h1
            have h2 : (match lookupN fs a.comps with
                | none => (Except.error Err.ioFailure, fs1)
                | some nodeA => copyEntries a b fs1 (walkNode nodeA)) =
                (Except.ok (), fs') := h1
            cases hla : lookupN fs a.comps with
            | none =>
              rw [hla] at h2
              exact Except.noConfusion (congrArg Prod.fst h2)
            | some nodeA =>
              rw [hla] at h2
              exact ⟨rfl, rfl, rfl, parent, fs1, nodeA, rfl, hmk, rfl, h2⟩

/-- Claim C2: after a successful `copy_dir(A, B)` on a well-formed tree,
every regular file at relative path `r` under `A` exists at `B/r` with
identical bytes, every directory at relative path `r` under `A` exists at
`B/r` as a directory, and every symlink at relative path `r` under `A`
exists at `B/r` as a symlink with the same raw (unresolved) target. -/
theorem copy_dir_replicates (fs : Node) (a b : RPath) (fs' : Node) (hwf : WF fs)
    (h : copy_dir fs a b = (Except.ok (), fs')) :
    (∀ r c, lookupN fs (a.comps ++ r) = some (.file c) →
        lookupN fs' (b.comps ++ r) = some (.file c)) ∧
      (∀ r es0, lookupN fs (a.comps ++ r) = some (.dir es0) →
        ∃ es1, lookupN fs' (b.comps ++ r) = some (.dir es1)) ∧
      (∀ r t, lookupN fs (a.comps ++ r) = some (.symlink t) →
        lookupN fs' (b.comps ++ r) = some (.symlink t)) := by
  obtain ⟨hx, hd, hb, parent, fs1, nodeA, hpar, hmk, hla, hce⟩ :=
    copy_dir_ok_elim fs a b fs' h
  have hwfA : WF nodeA := WF_lookupN a.comps fs nodeA hwf hla
  have hsrc_fs : ∀ r n, lookupN nodeA r = some n → lookupN fs (a.comps ++ r) = some n := by
    intro r n hr
    rw [lookupN_append, hla]
    exact hr
  have hsrc_fs' : ∀ r n, lookupN fs (a.comps ++ r) = some n → lookupN nodeA r = some n := by
    intro r n hr
    rw [lookupN_append, hla] at hr
    exact hr
  cases nodeA with
  | file bs =>
    exfalso
    rcases isDirP_true_elim fs a hd with ⟨esD, hstD⟩
    have h40 := statPath_some_elim fs a _ hstD
    rw [statN_lookup_file fs 40 a.comps bs (by omega) hla] at h40
    injection h40 with h40
    exact Node.noConfusion h40
  | symlink t =>
    rw [walkNode_symlink, copyEntries_cons] at hce
    have hs1 : lookupN fs1 a.comps = some (.symlink t) :=
      (mkdirp_preserves parent.comps fs fs1 hmk a.comps).2.1 t hla
    cases hstep : copyEntry a b fs1 ([], .symlink t) with
    | none =>
      rw [hstep] at hce
      exact Except.noConfusion (congrArg Prod.fst hce)
    | some g1 =>
      rw [hstep] at hce
      have hce2 : copyEntries a b g1 [] = (Except.ok (), fs') := hce
      have hg : g1 = fs' := congrArg Prod.snd hce2
      subst hg
      have hsi : srcIntact a fs1 [] (.symlink t) := by
        show lookupN fs1 (a.comps ++ []) = some (.symlink t)
        rw [List.append_nil]
        exact hs1
      have hdest : lookupN g1 (b.comps ++ []) = some (.symlink t) :=
        (copyEntry_ok a b fs1 g1 [] (.symlink t) hsi hstep).1
      refine ⟨?_, ?_, ?_⟩
      · intro r c hr
        cases r with
        | nil =>
          rw [List.append_nil, hla] at hr
          injection hr with hr
          exact Node.noConfusion hr
        | cons d r' =>
          rw [lookupN_append, hla] at hr
          exact Option.noConfusion hr
      · intro r es0 hr
        cases r with
        | nil =>
          rw [List.append_nil, hla] at hr
          injection hr with hr
          exact Node.noConfusion hr
        | cons d r' =>
          rw [lookupN_append, hla] at hr
          exact Option.noConfusion hr
      · intro r t' hr
        cases r with
        | nil =>
          rw [List.append_nil, hla] at hr
          injection hr with hr
          injection hr with hr
          rw [← hr]
          exact hdest
        | cons d r' =>
          rw [lookupN_append, hla] at hr
          exact Option.noConfusion hr
  | dir esA =>
    have hbnone1 : lookupN fs1 b.comps = none := by
      have hcopy := hce
      rw [walkNode_dir, copyEntries_cons] at hcopy
      cases hstep : copyEntry a b fs1 ([], Node.dir esA) with
      | none =>
        rw [hstep] at hcopy
        exact Except.noConfusion (congrArg Prod.fst hcopy)
      | some g1 =>
        have hcd : createDir fs1 (b.join []) = some g1 := hstep
        have hinv := (createDir_inv fs1 (b.join []) g1 hcd).1
        rw [join_comps, List.append_nil] at hinv
        exact hinv
    have hbnone : lookupN fs b.comps = none :=
      mkdirp_none parent.comps fs fs1 hmk b.comps hbnone1
    have hsrcH : ∀ x n, (x, n) ∈ walkNode (Node.dir esA) → srcIntact a fs1 x n := by
      intro x n hxw
      have hlk : lookupN (Node.dir esA) x = some n := walkNode_mem_lookupN x _ n hwfA hxw
      have hfs : lookupN fs (a.comps ++ x) = some n := hsrc_fs x n hlk
      cases n with
      | file c => exact (mkdirp_preserves parent.comps fs fs1 hmk _).1 c hfs
      | symlink t2 => exact (mkdirp_preserves parent.comps fs fs1 hmk _).2.1 t2 hfs
      | dir es2 => trivial
    have hfreshH : ∀ x n, (x, n) ∈ walkNode (Node.dir esA) →
        ¬ IsLead b.comps (a.comps ++ x) := by
      intro x n hxw hl
      have hlk := walkNode_mem_lookupN x _ n hwfA hxw
      have hfs := hsrc_fs x n hlk
      have hsome := lookupN_some_of_lead fs b.comps (a.comps ++ x) hl (by rw [hfs]; rfl)
      rw [hbnone] at hsome
      cases hsome
    have hordH := walkNode_pairwise (Node.dir esA) hwfA
    rcases copyEntries_sound a b (walkNode (Node.dir esA)) fs1 fs' hce hsrcH hfreshH hordH
      with ⟨hK1, _⟩
    refine ⟨?_, ?_, ?_⟩
    · intro r c hr
      exact hK1 r (.file c) (lookupN_mem_walkNode r _ _ (hsrc_fs' r _ hr))
    · intro r es0 hr
      exact hK1 r (.dir es0) (lookupN_mem_walkNode r _ _ (hsrc_fs' r _ hr))
    · intro r t2 hr
      exact hK1 r (.symlink t2) (lookupN_mem_walkNode r _ _ (hsrc_fs' r _ hr))

theorem fsC2_wf : WF fsC2 := by
  refine WF.dir _ (by decide) ?_
  intro e he
  simp only [List.mem_singleton] at he
  subst he
  refine WF.dir _ (by decide) ?_
  intro e he
  simp only [List.mem_cons, List.mem_singleton] at he
  rcases he with he | he | he
  · subst he
    refine WF.dir _ (by decide) ?_
    intro e he
    simp only [List.mem_singleton] at he
    subst he
    exact WF.file _
  · subst he
    exact WF.symlink _
  · exact absurd he (List.not_mem_nil _)

theorem copy_dir_replicates_witness :
    lookupN fsC2done (["copy"] ++ ["sub", "f"]) = some (.file [104, 105]) ∧
      lookupN fsC2done (["copy"] ++ ["l"]) =
        some (.symlink ⟨true, ["orig", "sub", "f"]⟩) := by
  have h : copy_dir fsC2 ⟨true, ["orig"]⟩ ⟨true, ["copy"]⟩ =
      (Except.ok (), fsC2done) := rfl
  have hrep := copy_dir_replicates fsC2 ⟨true, ["orig"]⟩ ⟨true, ["copy"]⟩ fsC2done fsC2_wf h
  exact ⟨hrep.1 ["sub", "f"] [104, 105] rfl,
    hrep.2.2 ["l"] ⟨true, ["orig", "sub", "f"]⟩ rfl⟩

/-- Claim C6: `copy_dir` fails with NotFound when the source does not
exist, with WrongType when the source exists but is not a directory, and
with AlreadyExists when the source checks pass and the destination already
exists; in each case the filesystem is returned unchanged (the failure
happens before any mutation). -/
theorem copy_dir_preconditions (fs : Node) (a b : RPath) :
    (existsP fs a = false → copy_dir fs a b = (.error (.notFound a), fs)) ∧
      (existsP fs a = true → isDirP fs a = false →
        copy_dir fs a b = (.error (.wrongType a), fs)) ∧
      (isDirP fs a = true → existsP fs b = true →
        copy_dir fs a b = (.error (.alreadyExists b), fs)) := by
  refine ⟨?_, ?_, ?_⟩
  · intro hx
    unfold copy_dir
    rw [hx, if_pos rfl]
  · intro hx hd
    unfold copy_dir
    rw [hx, if_neg (by decide), hd, if_pos rfl]
  · intro hd hb
    have hx : existsP fs a = true := by
      rcases isDirP_true_elim fs a hd with ⟨es, hst⟩
      unfold existsP
      rw [hst]
      rfl
    unfold copy_dir
    rw [hx, if_neg (by decide), hd, if_neg (by decide), hb, if_pos rfl]

theorem copy_dir_preconditions_witness :
    (copy_dir (.dir [("d", .dir []), ("f", .file [])]) ⟨true, ["x"]⟩ ⟨true, ["y"]⟩ =
      (.error (.notFound ⟨true, ["x"]⟩), .dir [("d", .dir []), ("f", .file [])])) ∧
      (copy_dir (.dir [("d", .dir []), ("f", .file [])]) ⟨true, ["f"]⟩ ⟨true, ["y"]⟩ =
        (.error (.wrongType ⟨true, ["f"]⟩), .dir [("d", .dir []), ("f", .file [])])) ∧
      (copy_dir (.dir [("d", .dir []), ("f", .file [])]) ⟨true, ["d"]⟩ ⟨true, ["f"]⟩ =
        (.error (.alreadyExists ⟨true, ["f"]⟩), .dir [("d", .dir []), ("f", .file [])])) :=
  ⟨(copy_dir_preconditions _ _ _).1 rfl,
    (copy_dir_preconditions _ _ _).2.1 rfl rfl,
    (copy_dir_preconditions _ _ _).2.2 rfl rfl⟩

/-- `stat` results of file kind carry over to a state in which every file
and symlink lookup is preserved exactly. -/
theorem statN_file_preserved (g g1 : Node)
    (hpres : ∀ q, (∀ c, lookupN g q = some (.file c) → lookupN g1 q = some (.file c)) ∧
      (∀ t, lookupN g q = some (.symlink t) → lookupN g1 q = some (.symlink t)))
    (fuel : Nat) :
    ∀ (p : List String) (c : List Nat),
      statN g fuel p = some (.file c) → statN g1 fuel p = some (.file c) := by
  induction fuel with
  | zero =>
    intro p c h
    rw [statN] at h
    cases h
  | succ m ih =>
    intro p c h
    cases hl : lookupN g p with
    | none =>
      rw [statN, hl] at h
      cases h
    | some nd =>
      cases nd with
      | file c0 =>
        rw [statN, hl] at h
        rw [statN, (hpres p).1 c0 hl]
        exact h
      | symlink t =>
        rw [statN, hl] at h
        rw [statN, (hpres p).2 t hl]
        exact ih (tResolve p t) c h
      | dir es =>
        rw [statN, hl] at h
        cases h

/-- Claim C7: `copy_file` fails with NotFound naming the source when the
source is absent, fails with WrongType naming the source when the source is
a directory (both checked before copying, leaving the filesystem
unchanged), and on success the destination holds exactly the source's
bytes. -/
theorem copy_file_spec (fs : Node) (a b : RPath) :
    (existsP fs a = false → copy_file fs a b = (.error (.notFound a), fs)) ∧
      (isDirP fs a = true → copy_file fs a b = (.error (.wrongType a), fs)) ∧
      (∀ fs', copy_file fs a b = (Except.ok (), fs') →
        ∃ c, statPath fs a = some (.file c) ∧ lookupN fs' b.comps = some (.file c)) := by
  refine ⟨?_, ?_, ?_⟩
  · intro hx
    unfold copy_file
    rw [hx, if_pos rfl]
  · intro hd
    rcases isDirP_true_elim fs a hd with ⟨es, hst⟩
    have hx : existsP fs a = true := by
      unfold existsP
      rw [hst]
      rfl
    have hf : isFileP fs a = false := by
      unfold isFileP
      rw [hst]
    unfold copy_file
    rw [hx, if_neg (by decide), hf, if_pos rfl]
  · intro fs' h
    unfold copy_file at h
    cases hx : existsP fs a with
    | false =>
      rw [hx, if_pos rfl] at h
      exact Except.noConfusion (congrArg Prod.fst h)
    | true =>
      rw [hx, if_neg (by decide)] at h
      cases hf : isFileP fs a with
      | false =>
        rw [hf, if_pos rfl] at h
        exact Except.noConfusion (congrArg Prod.fst h)
      | true =>
        rw [hf, if_neg (by decide)] at h
        cases hpar : b.parent with
        | none =>
          rw [hpar] at h
          exact Except.noConfusion (congrArg Prod.fst h)
        | some dest_dir =>
          rw [hpar] at h
          have h1 : (match mkdirp fs dest_dir.comps with
              | none => (Except.error Err.ioFailure, fs)
              | some fs1 =>
                match copyOp fs1 a b with
                | none => (Except.error Err.ioFailure, fs1)
                | some fs2 => (Except.ok (), fs2)) = (Except.ok (), fs') := h
          cases hmk : mkdirp fs dest_dir.comps with
          | none =>
            rw [hmk] at h1
            exact Except.noConfusion (congrArg Prod.fst h1)
          | some fs1 =>
            rw [hmk] at h1
            have h2 : (match copyOp fs1 a b with
                | none => (Except.error Err.ioFailure, fs1)
                | some fs2 => (Except.ok (), fs2)) = (Except.ok (), fs') := h1
            cases hco : copyOp fs1 a b with
            | none =>
              rw [hco] at h2
              exact Except.noConfusion (congrArg Prod.fst h2)
            | some fs2 =>
              rw [hco] at h2
              have hfs2 : fs2 = fs' := congrArg Prod.snd h2
              subst hfs2
              rcases copyOp_inv fs1 a b fs2 hco with ⟨c, hst1, hwr⟩
              rcases isFileP_true_elim fs a hf with ⟨c0, hst0⟩
              have hst0' : statN fs1 40 a.comps = some (.file c0) :=
                statN_file_preserved fs fs1
                  (fun q => ⟨(mkdirp_preserves dest_dir.comps fs fs1 hmk q).1,
                    (mkdirp_preserves dest_dir.comps fs fs1 hmk q).2.1⟩)
                  40 a.comps c0 (statPath_some_elim fs a _ hst0)
              have hcc : c = c0 := by
                have := statPath_some_elim fs1 a _ hst1
                rw [hst0'] at this
                injection this with this
                injection this with this
                exact this.symm
              subst hcc
              exact ⟨c, hst0, setPath_lookup_self b.comps fs1 _ fs2 (writeFile_inv fs1 b.comps c fs2 hwr)⟩

theorem copy_file_spec_witness :
    (copy_file (.dir [("d", .dir []), ("f", .file [7])]) ⟨true, ["x"]⟩ ⟨true, ["y"]⟩ =
      (.error (.notFound ⟨true, ["x"]⟩), .dir [("d", .dir []), ("f", .file [7])])) ∧
      (copy_file (.dir [("d", .dir []), ("f", .file [7])]) ⟨true, ["d"]⟩ ⟨true, ["y"]⟩ =
        (.error (.wrongType ⟨true, ["d"]⟩), .dir [("d", .dir []), ("f", .file [7])])) ∧
      (∃ c, statPath (.dir [("d", .dir []), ("f", .file [7])]) ⟨true, ["f"]⟩ =
          some (.file c) ∧
        lookupN (.dir [("d", .dir []), ("f", .file [7]), ("g", .file [7])]) ["g"] =
          some (.file c)) :=
  ⟨(copy_file_spec _ _ _).1 rfl,
    (copy_file_spec _ _ _).2.1 rfl,
    (copy_file_spec (.dir [("d", .dir []), ("f", .file [7])]) ⟨true, ["f"]⟩
      ⟨true, ["g"]⟩).2.2 (.dir [("d", .dir []), ("f", .file [7]), ("g", .file [7])]) rfl⟩

/-- Claim C8: `read_file` fails with NotFound when the path is absent, with
WrongType (a distinct error from IOFailure) when the path is a directory,
and with DecodeFailure (again distinct from a plain I/O error) when the
file's bytes are not valid UTF-8 text; on success it returns the file's
entire content, which is valid text. -/
theorem read_file_spec (fs : Node) (p : RPath) :
    (existsP fs p = false → read_file fs p = .error (.notFound p)) ∧
      (isDirP fs p = true → read_file fs p = .error (.wrongType p)) ∧
      (∀ bytes, statPath fs p = some (.file bytes) → utf8Valid bytes = false →
        read_file fs p = .error (.decodeFailure p)) ∧
      (∀ r, read_file fs p = .ok r → statPath fs p = some (.file r) ∧ utf8Valid r = true) ∧
      ((∀ q : RPath, Err.decodeFailure q ≠ Err.ioFailure) ∧
        (∀ q : RPath, Err.wrongType q ≠ Err.ioFailure)) := by
  refine ⟨?_, ?_, ?_, ?_, ?_⟩
  · intro hx
    unfold read_file
    rw [hx, if_pos rfl]
  · intro hd
    rcases isDirP_true_elim fs p hd with ⟨es, hst⟩
    have hx : existsP fs p = true := by
      unfold existsP
      rw [hst]
      rfl
    have hf : isFileP fs p = false := by
      unfold isFileP
      rw [hst]
    unfold read_file
    rw [hx, if_neg (by decide), hf, if_pos rfl]
  · intro bytes hst hval
    have hx : existsP fs p = true := by
      unfold existsP
      rw [hst]
      rfl
    have hf : isFileP fs p = true := by
      unfold isFileP
      rw [hst]
    unfold read_file
    rw [hx, if_neg (by decide), hf, if_neg (by decide), hst]
    show (if utf8Valid bytes = true then (Except.ok bytes : Except Err (List Nat))
      else .error (.decodeFailure p)) = .error (.decodeFailure p)
    rw [hval, if_neg (by decide)]
  · intro r h
    unfold read_file at h
    cases hx : existsP fs p with
    | false =>
      rw [hx, if_pos rfl] at h
      exact Except.noConfusion h
    | true =>
      rw [hx, if_neg (by decide)] at h
      cases hf : isFileP fs p with
      | false =>
        rw [hf, if_pos rfl] at h
        exact Except.noConfusion h
      | true =>
        rw [hf, if_neg (by decide)] at h
        cases hst : statPath fs p with
        | none =>
          rw [hst] at h
          exact Except.noConfusion h
        | some m =>
          rw [hst] at h
          cases m with
          | file bytes =>
            have h2 : (if utf8Valid bytes = true then (Except.ok bytes : Except Err (List Nat))
                else .error (.decodeFailure p)) = .ok r := h
            cases hval : utf8Valid bytes with
            | false =>
              rw [hval, if_neg (by decide)] at h2
              exact Except.noConfusion h2
            | true =>
              rw [hval, if_pos rfl] at h2
              injection h2 with h2
              subst h2
              exact ⟨rfl, hval⟩
          | symlink t => exact Except.noConfusion h
          | dir es => exact Except.noConfusion h
  · exact ⟨fun q hq => Err.noConfusion hq, fun q hq => Err.noConfusion hq⟩

theorem read_file_spec_witness :
    (read_file (.dir [("d", .dir []), ("good", .file [104, 105]), ("bad", .file [255])])
        ⟨true, ["x"]⟩ = .error (.notFound ⟨true, ["x"]⟩)) ∧
      (read_file (.dir [("d", .dir []), ("good", .file [104, 105]), ("bad", .file [255])])
        ⟨true, ["d"]⟩ = .error (.wrongType ⟨true, ["d"]⟩)) ∧
      (read_file (.dir [("d", .dir []), ("good", .file [104, 105]), ("bad", .file [255])])
        ⟨true, ["bad"]⟩ = .error (.decodeFailure ⟨true, ["bad"]⟩)) ∧
      (statPath (.dir [("d", .dir []), ("good", .file [104, 105]), ("bad", .file [255])])
          ⟨true, ["good"]⟩ = some (.file [104, 105]) ∧
        utf8Valid [104, 105] = true) :=
  ⟨(read_file_spec _ _).1 rfl,
    (read_file_spec _ _).2.1 rfl,
    (read_file_spec _ _).2.2.1 [255] rfl (by decide),
    (read_file_spec (.dir [("d", .dir []), ("good", .file [104, 105]), ("bad", .file [255])])
      ⟨true, ["good"]⟩).2.2.2.1 [104, 105] rfl⟩

/-- Claim C9: a dangling symlink under the source (its target `/tc` does
not exist) does not make `copy_dir` fail: the operation succeeds and the
symlink is copied by its raw target, not by content.  (The proof never
uses the target's state: only the link's own entry is inspected.) -/
theorem copy_dir_dangling_symlink (tc : List String)
    (hdangling : statPath (fsC9 tc) ⟨true, tc⟩ = none) :
    copy_dir (fsC9 tc) ⟨true, ["orig"]⟩ ⟨true, ["copy"]⟩ =
        (Except.ok (), fsC9done tc) ∧
      lookupN (fsC9done tc) ["copy", "link"] = some (.symlink ⟨true, tc⟩) := by
  have h1 : copy_dir (fsC9 tc) ⟨true, ["orig"]⟩ ⟨true, ["copy"]⟩ =
      copyEntries ⟨true, ["orig"]⟩ ⟨true, ["copy"]⟩ (fsC9mid tc)
        [(["link"], .symlink ⟨true, tc⟩)] := rfl
  have h2 : copyEntries ⟨true, ["orig"]⟩ ⟨true, ["copy"]⟩ (fsC9mid tc)
      [(["link"], .symlink ⟨true, tc⟩)] =
      (match (if isDirP (fsC9mid tc) ⟨true, ["orig", "link"]⟩
              then symlink_dir (fsC9mid tc) ⟨true, tc⟩ ⟨true, ["copy", "link"]⟩
              else symlink_file (fsC9mid tc) ⟨true, tc⟩ ⟨true, ["copy", "link"]⟩) with
       | none => (Except.error Err.ioFailure, fsC9mid tc)
       | some g2 => copyEntries ⟨true, ["orig"]⟩ ⟨true, ["copy"]⟩ g2 []) := rfl
  rw [h1, h2]
  unfold symlink_dir symlink_file
  rw [ite_self]
  exact ⟨rfl, rfl⟩

theorem copy_dir_dangling_symlink_witness :
    statPath (fsC9 ["nope"]) ⟨true, ["nope"]⟩ = none ∧
      copy_dir (fsC9 ["nope"]) ⟨true, ["orig"]⟩ ⟨true, ["copy"]⟩ =
          (Except.ok (), fsC9done ["nope"]) ∧
        lookupN (fsC9done ["nope"]) ["copy", "link"] =
          some (.symlink ⟨true, ["nope"]⟩) :=
  ⟨rfl, copy_dir_dangling_symlink ["nope"] rfl⟩

/-- Counterexample to claim C10 as stated: for `copy_dir` with destination
`/` (a parentless path), all source preconditions hold, yet the call does
not reach the `unwrap` — the root exists, so the destination-existence
check fails first and the function returns an AlreadyExists error instead
of panicking. -/
theorem copy_dir_root_dest_no_panic :
    copy_dir (.dir [("a", .dir [])]) ⟨true, ["a"]⟩ ⟨true, []⟩ =
        (Except.error (Err.alreadyExists ⟨true, []⟩), .dir [("a", .dir [])]) ∧
      (Except.error (Err.alreadyExists ⟨true, []⟩),
          (.dir [("a", .dir [])] : Node)).1 ≠ (Except.error Err.panicked : Except Err Unit) :=
  ⟨rfl, fun h => by injection h with h; exact Err.noConfusion h⟩

/-- Claim C10, amended: with the source preconditions satisfied,
`copy_file` panics (`unwrap` on `Path::parent`) for both parentless
destinations `/` and `""`; `copy_dir` panics for the parentless destination
`""` (which does not exist), but for the root `/`, which always exists, it
returns AlreadyExists before reaching the `unwrap`. -/
theorem parentless_dest_panics (es : List (String × Node)) (a : RPath) :
    (isFileP (.dir es) a = true →
      copy_file (.dir es) a ⟨true, []⟩ = (.error .panicked, .dir es) ∧
        copy_file (.dir es) a ⟨false, []⟩ = (.error .panicked, .dir es)) ∧
      (isDirP (.dir es) a = true →
        copy_dir (.dir es) a ⟨false, []⟩ = (.error .panicked, .dir es)) ∧
      (isDirP (.dir es) a = true →
        copy_dir (.dir es) a ⟨true, []⟩ =
          (.error (.alreadyExists ⟨true, []⟩), .dir es)) := by
  refine ⟨?_, ?_, ?_⟩
  · intro hf
    rcases isFileP_true_elim _ a hf with ⟨c, hst⟩
    have hx : existsP (.dir es) a = true := by
      unfold existsP
      rw [hst]
      rfl
    constructor
    · unfold copy_file
      rw [hx, if_neg (by decide), hf, if_neg (by decide)]
      rfl
    · unfold copy_file
      rw [hx, if_neg (by decide), hf, if_neg (by decide)]
      rfl
  · intro hd
    rcases isDirP_true_elim _ a hd with ⟨es2, hst⟩
    have hx : existsP (.dir es) a = true := by
      unfold existsP
      rw [hst]
      rfl
    have hto : existsP (.dir es) ⟨false, []⟩ = false := rfl
    unfold copy_dir
    rw [hx, if_neg (by decide), hd, if_neg (by decide), hto, if_neg (by decide)]
    rfl
  · intro hd
    rcases isDirP_true_elim _ a hd with ⟨es2, hst⟩
    have hx : existsP (.dir es) a = true := by
      unfold existsP
      rw [hst]
      rfl
    have hroot : existsP (.dir es) ⟨true, []⟩ = true := by
      unfold existsP
      rw [show statPath (.dir es) ⟨true, []⟩ = statN (.dir es) 40 [] from rfl,
        statN_lookup_dir (.dir es) 40 [] es (by omega) (lookupN_nil _)]
      rfl
    unfold copy_dir
    rw [hx, if_neg (by decide), hd, if_neg (by decide), hroot, if_pos rfl]

theorem parentless_dest_panics_witness :
    (copy_file (.dir [("f", .file [])]) ⟨true, ["f"]⟩ ⟨true, []⟩ =
        (.error .panicked, .dir [("f", .file [])]) ∧
      copy_file (.dir [("f", .file [])]) ⟨true, ["f"]⟩ ⟨false, []⟩ =
        (.error .panicked, .dir [("f", .file [])])) ∧
      copy_dir (.dir [("d", .dir [])]) ⟨true, ["d"]⟩ ⟨false, []⟩ =
        (.error .panicked, .dir [("d", .dir [])]) ∧
      copy_dir (.dir [("d", .dir [])]) ⟨true, ["d"]⟩ ⟨true, []⟩ =
        (.error (.alreadyExists ⟨true, []⟩), .dir [("d", .dir [])]) :=
  ⟨(parentless_dest_panics [("f", .file [])] ⟨true, ["f"]⟩).1 rfl,
    (parentless_dest_panics [("d", .dir [])] ⟨true, ["d"]⟩).2.1 rfl,
    (parentless_dest_panics [("d", .dir [])] ⟨true, ["d"]⟩).2.2 rfl⟩

end Bundle
